import Mathlib

/-!
Verification of the gotoon codec (package gotoon, file with Options / Encode /
Decode / lexer / parser; called part_001 below).

The Go code operates on dynamic values of type interface as produced by
encoding/json: nil, bool, int64, float64, string, map from string to value,
and slices of values.  The shallow embedding closes this into the inductive
type Value below.  Notes on the embedding, kept next to each definition:

- Go maps are unordered with unique keys; Value.vobj carries an association
  list.  A vobj whose keys repeat corresponds to no Go map; theorems that
  need map semantics carry a Nodup hypothesis.
- float64 rendering (fmt %g) and parsing (strconv.ParseFloat) are IEEE
  specific; Value.vfloat carries the numeric lexeme instead of an IEEE
  value.  No claim inspects the numeric value of a float.
- Go int is embedded as Nat for IndentSize (a negative IndentSize makes
  strings.Repeat panic, outside the model) and int64 as Int with explicit
  clamping where strconv.ParseInt clamps.
- On a nil value below the top level, encodeValue reaches the default branch
  of its kind switch with the zero reflect.Value, and rv.CanInterface panics
  (reflect: call of reflect.Value.CanInterface on zero Value).  The panic is
  embedded as the encode error EErr.nilPanic.
-/

namespace Gotoon

/-- Dynamic Go values handled by the codec (the JSON value model of the
spec).  vfloat carries the numeric lexeme, see the file comment. -/
inductive Value where
  | vnull
  | vbool (b : Bool)
  | vint (n : Int)
  | vfloat (s : String)
  | vstr (s : String)
  | vobj (es : List (String × Value))
  | varr (xs : List Value)
deriving Repr

/-- Options from part_001 lines 15 to 21. -/
structure Options where
  IndentSize : Nat
  Delimiter : String
  UseTabular : Bool
  KeyFolding : Bool
  ShowArraySizes : Bool
deriving Repr, DecidableEq

/-- DefaultOptions from part_001 lines 24 to 32. -/
def DefaultOptions : Options :=
  { IndentSize := 2
    Delimiter := ", "
    UseTabular := true
    KeyFolding := true
    ShowArraySizes := true }

/-! ## String order (Go sort.Strings)

Go compares strings byte-wise; on valid UTF-8 this equals code-point-wise
lexicographic comparison, embedded here on Char lists.  A Bool-valued
comparison keeps insertionSort computable by kernel reduction. -/

def charsLe : List Char → List Char → Bool
  | [], _ => true
  | _ :: _, [] => false
  | a :: as, b :: bs =>
    if a.toNat < b.toNat then true
    else if b.toNat < a.toNat then false
    else charsLe as bs

def strLe (a b : String) : Bool := charsLe a.data b.data

def strRel (a b : String) : Prop := strLe a b = true

instance : DecidableRel strRel := fun _ _ => inferInstanceAs (Decidable (_ = true))

/-- Order on key-indexed pairs, comparing the key only (sort.Strings over
the keys of a map, with each key carrying its datum along). -/
def pairRel {α : Type} (a b : String × α) : Prop := strRel a.1 b.1

instance {α : Type} : DecidableRel (pairRel (α := α)) :=
  fun _ _ => inferInstanceAs (Decidable (_ = true))

/-- The sorted key-value list of a Go map given as an association list. -/
def sortPairs {α : Type} (es : List (String × α)) : List (String × α) :=
  List.insertionSort pairRel es

/-! ## Character classes, strconv.Quote, strconv.Unquote, strconv.ParseInt -/

/-- isAlpha from part_001 lines 508 to 510. -/
def isAlphaGo (c : Char) : Bool :=
  (0x61 ≤ c.toNat && c.toNat ≤ 0x7a) || (0x41 ≤ c.toNat && c.toNat ≤ 0x5a) || c == '_'

def isDigitChar (c : Char) : Bool := 0x30 ≤ c.toNat && c.toNat ≤ 0x39

/-- isAlphaNumeric from part_001 lines 512 to 514. -/
def isAlphaNumGo (c : Char) : Bool := isAlphaGo c || isDigitChar c

/-- unicode.IsSpace over the White_Space code points. -/
def goIsSpace (c : Char) : Bool :=
  let n := c.toNat
  (0x09 ≤ n && n ≤ 0x0d) || n == 0x20 || n == 0x85 || n == 0xa0 || n == 0x1680 ||
  (0x2000 ≤ n && n ≤ 0x200a) || n == 0x2028 || n == 0x2029 || n == 0x202f ||
  n == 0x205f || n == 0x3000

def hexDigitChar (n : Nat) : Char :=
  if n < 10 then Char.ofNat (0x30 + n) else Char.ofNat (0x61 + (n - 10))

/-- strconv.Quote of one character, as used by fmt %q on strings.  For
code points at or above 0x80 Go keeps printable runes and escapes the
rest; the model keeps all of them literally.  Every theorem that inspects
quoted output restricts string contents to code points below 0x80, where
the model is exact (IsPrint there is exactly 0x20 to 0x7e). -/
def quoteChar (c : Char) : List Char :=
  if c = '"' ∨ c = '\\' then ['\\', c]
  else if 0x20 ≤ c.toNat ∧ c.toNat ≤ 0x7e then [c]
  else if 0x80 ≤ c.toNat then [c]
  else if c.toNat = 0x07 then ['\\', 'a']
  else if c.toNat = 0x08 then ['\\', 'b']
  else if c.toNat = 0x0c then ['\\', 'f']
  else if c.toNat = 0x0a then ['\\', 'n']
  else if c.toNat = 0x0d then ['\\', 'r']
  else if c.toNat = 0x09 then ['\\', 't']
  else if c.toNat = 0x0b then ['\\', 'v']
  else ['\\', 'x', hexDigitChar (c.toNat / 16), hexDigitChar (c.toNat % 16)]

/-- strconv.Quote, the rendering fmt %q applies to string values. -/
def goQuote (s : String) : String :=
  String.mk ('"' :: s.data.flatMap quoteChar ++ ['"'])

def hexVal (c : Char) : Option Nat :=
  if 0x30 ≤ c.toNat ∧ c.toNat ≤ 0x39 then some (c.toNat - 0x30)
  else if 0x61 ≤ c.toNat ∧ c.toNat ≤ 0x66 then some (c.toNat - 0x61 + 10)
  else if 0x41 ≤ c.toNat ∧ c.toNat ≤ 0x46 then some (c.toNat - 0x41 + 10)
  else none

def octVal (c : Char) : Option Nat :=
  if 0x30 ≤ c.toNat ∧ c.toNat ≤ 0x37 then some (c.toNat - 0x30) else none

def hex4 (a b c d : Char) : Option Nat := do
  let va ← hexVal a; let vb ← hexVal b; let vc ← hexVal c; let vd ← hexVal d
  pure (va * 4096 + vb * 256 + vc * 16 + vd)

/-- A Unicode scalar escape value as Go materialises it: surrogate halves
become the replacement rune U+FFFD (utf8.EncodeRune), values beyond
0x10FFFF are a syntax error handled by the caller. -/
def runeOf (n : Nat) : Char :=
  if 0xd800 ≤ n ∧ n ≤ 0xdfff then Char.ofNat 0xfffd else Char.ofNat n

/- The interior of a double-quoted literal, one strconv.unquoteChar step
per character: a raw quote or raw newline is a syntax error, a backslash
starts one of the escapes of the Go quoted-string form (unqEsc). -/
mutual

def unqChars : List Char → Option (List Char)
  | [] => some []
  | c :: rest =>
    if c = '"' then none
    else if c = '\n' then none
    else if c = '\\' then unqEsc rest
    else (unqChars rest).map (c :: ·)

def unqEsc : List Char → Option (List Char)
  | [] => none
  | e :: r =>
    if e = 'a' then (unqChars r).map (Char.ofNat 0x07 :: ·)
    else if e = 'b' then (unqChars r).map (Char.ofNat 0x08 :: ·)
    else if e = 'f' then (unqChars r).map (Char.ofNat 0x0c :: ·)
    else if e = 'n' then (unqChars r).map ('\n' :: ·)
    else if e = 'r' then (unqChars r).map ('\r' :: ·)
    else if e = 't' then (unqChars r).map ('\t' :: ·)
    else if e = 'v' then (unqChars r).map (Char.ofNat 0x0b :: ·)
    else if e = '\\' then (unqChars r).map ('\\' :: ·)
    else if e = '"' then (unqChars r).map ('"' :: ·)
    else if e = 'x' then
      match r with
      | h1 :: h2 :: r2 =>
        match hexVal h1, hexVal h2 with
        | some v1, some v2 => (unqChars r2).map (Char.ofNat (v1 * 16 + v2) :: ·)
        | _, _ => none
      | _ => none
    else if e = 'u' then
      match r with
      | h1 :: h2 :: h3 :: h4 :: r2 =>
        match hex4 h1 h2 h3 h4 with
        | some v => (unqChars r2).map (runeOf v :: ·)
        | none => none
      | _ => none
    else if e = 'U' then
      match r with
      | h1 :: h2 :: h3 :: h4 :: h5 :: h6 :: h7 :: h8 :: r2 =>
        match hex4 h1 h2 h3 h4, hex4 h5 h6 h7 h8 with
        | some hi, some lo =>
          if hi * 65536 + lo ≤ 0x10ffff then
            (unqChars r2).map (runeOf (hi * 65536 + lo) :: ·)
          else none
        | _, _ => none
      | _ => none
    else
      match octVal e, r with
      | some v1, o2 :: o3 :: r2 =>
        match octVal o2, octVal o3 with
        | some v2, some v3 =>
          if v1 * 64 + v2 * 8 + v3 ≤ 255 then
            (unqChars r2).map (Char.ofNat (v1 * 64 + v2 * 8 + v3) :: ·)
          else none
        | _, _ => none
      | _, _ => none

end

/-- strconv.Unquote restricted to double-quoted input, the only shape the
lexer produces (string lexemes always begin with a double quote). -/
def goUnquote (s : String) : Option String :=
  match s.data with
  | '"' :: rest =>
    if rest.getLast? = some '"' then (unqChars rest.dropLast).map String.mk
    else none
  | _ => none

def int64Max : Int := 9223372036854775807
def int64Min : Int := -9223372036854775808

def digitsVal : List Char → Option Nat
  | [] => none
  | ds => if ds.all isDigitChar then
      some (ds.foldl (fun acc c => acc * 10 + (c.toNat - 0x30)) 0)
    else none

def goParseInt64Chars : List Char → Int
  | [] => 0
  | c :: cs =>
    if c = '+' then
      match digitsVal cs with
      | some v => if (v : Int) > int64Max then int64Max else (v : Int)
      | none => 0
    else if c = '-' then
      match digitsVal cs with
      | some v => if -(v : Int) < int64Min then int64Min else -(v : Int)
      | none => 0
    else
      match digitsVal (c :: cs) with
      | some v => if (v : Int) > int64Max then int64Max else (v : Int)
      | none => 0

/-- strconv.ParseInt with base 10 and 64 bits, with the error dropped the
way part_001 drops it: syntax errors give 0, range errors give the clamped
bound (ParseInt returns the bound together with ErrRange). -/
def goParseInt64 (s : String) : Int := goParseInt64Chars s.data

/-- Go strings.Contains checks for the float marks in the number lexeme
(part_001 line 553). -/
def hasDotE (s : String) : Bool :=
  s.data.any (fun c => c == '.' || c == 'e' || c == 'E')

/-! ## Encoder helpers -/

/-- strings.Repeat of a space, the body of writeIndent (part_001 lines 303
to 305). -/
def spaces (n : Nat) : String := String.mk (List.replicate n ' ')

/-- strings.Join. -/
def goJoin (l : List String) (sep : String) : String :=
  match l with
  | [] => ""
  | [s] => s
  | s :: rest => s ++ sep ++ goJoin rest sep

def isObjB : Value → Bool
  | .vobj _ => true
  | _ => false

/-- The entry list of a value after the Go type assertion to a string map:
a non-map gives the nil map, hence no entries. -/
def entriesOf : Value → List (String × Value)
  | .vobj es => es
  | _ => []

/-- Key membership in the asserted map (comma-ok index). -/
def hasKey (v : Value) (k : String) : Bool := ((entriesOf v).lookup k).isSome

/-- The key set of the asserted map.  Go ranges over map keys, which are
unique; dedup mirrors that set semantics for association lists. -/
def objKeys (v : Value) : List String := ((entriesOf v).map Prod.fst).dedup

/-- getCommonKeys from part_001 lines 254 to 284: the keys of the first
element surviving membership in every later element, sorted ascending. -/
def getCommonKeys : List Value → List String
  | [] => []
  | first :: rest =>
    List.insertionSort strRel
      ((objKeys first).filter (fun k => rest.all (fun it => hasKey it k)))

/-- canUseTabularFormat from part_001 lines 239 to 252. -/
def canUseTabularFormat (xs : List Value) : Bool :=
  match xs with
  | [] => false
  | _ => xs.all isObjB && !(getCommonKeys xs).isEmpty

/-- fmt %v of a dynamic value, reached by formatValue for maps and slices.
fmt renders maps with sorted keys as map[k1:v1 k2:v2] and slices as
[v1 v2]; for vfloat the lexeme stands in for the %v float rendering. -/
def goV : Value → String
  | .vnull => "<nil>"
  | .vbool b => toString b
  | .vint n => toString n
  | .vfloat s => s
  | .vstr s => s
  | .vobj es => "map[" ++ goJoin (sortPairs (goVEntries es) |>.map
      (fun p => p.1 ++ ":" ++ p.2)) " " ++ "]"
  | .varr xs => "[" ++ goJoin (goVElems xs) " " ++ "]"
where
  goVEntries : List (String × Value) → List (String × String)
    | [] => []
    | (k, v) :: rest => (k, goV v) :: goVEntries rest
  goVElems : List Value → List String
    | [] => []
    | v :: rest => goV v :: goVElems rest

/-- formatValue from part_001 lines 286 to 301, the tabular cell renderer:
nil renders as the literal null, maps and slices fall to the %v default. -/
def formatValue : Value → String
  | .vstr s => goQuote s
  | .vbool b => toString b
  | .vint n => toString n
  | .vfloat s => s
  | .vnull => "null"
  | v => goV v

/-- The encode-side runtime failure: encodeValue on a nil value panics in
reflect (see the file comment).  Aborting with this error models the
panic; the expected-map and expected-slice errors of part_001 are
unreachable on the closed Value type. -/
inductive EErr
  | nilPanic
deriving Repr, DecidableEq

/-- One rendered object line of encodeMap (part_001 lines 141 to 153):
indent, key, colon-space, rendered value, a comma on every entry but the
last, newline. -/
def entryLines (sz : Nat) (ind : Nat) : List (String × String) → String
  | [] => ""
  | [(k, s)] => spaces (ind + sz) ++ k ++ ": " ++ s ++ "\n"
  | (k, s) :: rest =>
    spaces (ind + sz) ++ k ++ ": " ++ s ++ ",\n" ++ entryLines sz ind rest

/-- The builder output of encodeMap around its entry loop (part_001 lines
135 to 158): leading indent, open brace, newline when non-empty, entries,
closing indent when non-empty, close brace.  The sz argument is the
IndentSize option, the only option field this part reads. -/
def buildMapText (sz : Nat) (ind : Nat) (rs : List (String × String)) : String :=
  spaces ind ++ "\x7b" ++ (if rs.isEmpty then "" else "\n") ++ entryLines sz ind rs ++
    (if rs.isEmpty then "" else spaces ind) ++ "\x7d"

/-- One rendered element line of the plain array loop (part_001 lines 210
to 219): indent then element, comma-newline between elements. -/
def elemLines (sz : Nat) (ind : Nat) : List String → String
  | [] => ""
  | [s] => spaces (ind + sz) ++ s
  | s :: rest => spaces (ind + sz) ++ s ++ ",\n" ++ elemLines sz ind rest

/-- The builder output of the non-tabular branch of encodeArray (part_001
lines 178 to 226), reading the ShowArraySizes and IndentSize options. -/
def buildArrText (showSizes : Bool) (sz : Nat) (ind : Nat) (rs : List String) : String :=
  "[" ++ (if showSizes then " " ++ toString rs.length ++ " " else "") ++
    (if rs.isEmpty then "" else "\n" ++ elemLines sz ind rs ++ "\n" ++ spaces ind) ++ "]"

/-- One tabular row (part_001 lines 190 to 202): the cells are the common
keys looked up in the row map, a missing key giving the nil interface,
rendered by formatValue and joined by the Delimiter option. -/
def rowText (delim : String) (keys : List String) (item : Value) : String :=
  goJoin (keys.map (fun k => formatValue (((entriesOf item).lookup k).getD .vnull))) delim

def rowLines (delim : String) (sz : Nat) (ind : Nat) (keys : List String) : List Value → String
  | [] => ""
  | [item] => spaces (ind + sz) ++ rowText delim keys item
  | item :: rest =>
    spaces (ind + sz) ++ rowText delim keys item ++ "\n" ++ rowLines delim sz ind keys rest

/-- The tabular branch of encodeArray (part_001 lines 178 to 202 and 229
to 234): bracket, optional size, brace-wrapped key header, rows, newline,
indent, closing bracket; reads ShowArraySizes, Delimiter and IndentSize. -/
def buildTabularText (showSizes : Bool) (delim : String) (sz : Nat) (ind : Nat)
    (xs : List Value) : String :=
  "[" ++ (if showSizes then " " ++ toString xs.length ++ " " else "") ++
    "\x7b" ++ goJoin (getCommonKeys xs) delim ++ "\x7d:\n" ++
    rowLines delim sz ind (getCommonKeys xs) xs ++ "\n" ++ spaces ind ++ "]"

/-! The mutual encoder.  The Go code renders map entries in sorted key
order; the embedding renders them in list order (structural recursion) and
sorts the rendered pairs afterwards.  Output agrees: rendering of an entry
does not depend on its position, and the only error, nilPanic, is the same
whichever entry raises it first. -/

mutual

/-- encodeValue from part_001 lines 82 to 111: the kind switch.  Strings
render with %q, booleans with %t, integers with %d; a nil value panics in
reflect (EErr.nilPanic).  The map and slice cases inline encodeMap and
encodeArray, restated below as standalone definitions, so that the mutual
recursion stays structural. -/
def encodeValue : Value → Options → Nat → Except EErr String
  | .vobj es, o, ind =>
    (match renderEntries es o (ind + o.IndentSize) with
     | .error e => .error e
     | .ok rendered => .ok (buildMapText o.IndentSize ind (sortPairs rendered)))
  | .varr xs, o, ind =>
    if o.UseTabular && canUseTabularFormat xs then
      .ok (buildTabularText o.ShowArraySizes o.Delimiter o.IndentSize ind xs)
    else
      (match renderElems xs o (ind + o.IndentSize) with
       | .error e => .error e
       | .ok rendered => .ok (buildArrText o.ShowArraySizes o.IndentSize ind rendered))
  | .vstr s, _, _ => .ok (goQuote s)
  | .vbool b, _, _ => .ok (toString b)
  | .vint n, _, _ => .ok (toString n)
  | .vfloat s, _, _ => .ok s
  | .vnull, _, _ => .error .nilPanic

def renderEntries : List (String × Value) → Options → Nat → Except EErr (List (String × String))
  | [], _, _ => .ok []
  | (k, v) :: rest, o, ind =>
    match encodeValue v o ind with
    | .error e => .error e
    | .ok s =>
      match renderEntries rest o ind with
      | .error e => .error e
      | .ok r => .ok ((k, s) :: r)

def renderElems : List Value → Options → Nat → Except EErr (List String)
  | [], _, _ => .ok []
  | v :: rest, o, ind =>
    match encodeValue v o ind with
    | .error e => .error e
    | .ok s =>
      match renderElems rest o ind with
      | .error e => .error e
      | .ok r => .ok (s :: r)

end

/-- encodeMap from part_001 lines 113 to 161: sort the keys, render each
entry at indent plus IndentSize, assemble with braces. -/
def encodeMap (es : List (String × Value)) (o : Options) (ind : Nat) : Except EErr String :=
  match renderEntries es o (ind + o.IndentSize) with
  | .error e => .error e
  | .ok rendered => .ok (buildMapText o.IndentSize ind (sortPairs rendered))

/-- encodeArray from part_001 lines 163 to 237: tabular when UseTabular
and canUseTabularFormat, else one element per line. -/
def encodeArray (xs : List Value) (o : Options) (ind : Nat) : Except EErr String :=
  if o.UseTabular && canUseTabularFormat xs then
    .ok (buildTabularText o.ShowArraySizes o.Delimiter o.IndentSize ind xs)
  else
    match renderElems xs o (ind + o.IndentSize) with
    | .error e => .error e
    | .ok rendered => .ok (buildArrText o.ShowArraySizes o.IndentSize ind rendered)


/-- Encode from part_001 lines 35 to 47: nil in, empty string out,
otherwise encodeValue at indent zero. -/
def Encode (data : Value) (options : Options) : Except EErr String :=
  match data with
  | .vnull => .ok ""
  | v => encodeValue v options 0

/-! ## Lexer (part_001 lines 311 to 514)

The Go lexer walks byte positions; on the code points that decide every
token class (all below 0x80) byte steps and character steps agree, so the
embedding walks a character list, threading the absolute position only for
the pos field of tokens. -/

inductive TokenType where
  | eof | lbrace | rbrace | lbracket | rbracket | colon | comma
  | number | str | boolean | nullTok | ident | coloncolon | size
deriving Repr, DecidableEq

structure Token where
  typ : TokenType
  value : String
  pos : Nat
deriving Repr, DecidableEq

def mkTok (t : TokenType) (v : List Char) (p : Nat) : Token := ⟨t, String.mk v, p⟩

/-- The loop body of scanString (part_001 lines 440 to 451): stop at an
unescaped quote or end of input, skip the character after a backslash.
Returns the consumed characters (closing quote included when present) and
the rest. -/
def scanStringTail : List Char → List Char × List Char
  | [] => ([], [])
  | '"' :: r => (['"'], r)
  | '\\' :: c :: r => ('\\' :: c :: (scanStringTail r).1, (scanStringTail r).2)
  | ['\\'] => (['\\'], [])
  | c :: r => (c :: (scanStringTail r).1, (scanStringTail r).2)

/-- The loop of scanNumber (part_001 lines 458 to 483).  After the leading
digits the same saved character c is tested first against the dot and then
against the exponent mark, so a dot part never continues into an exponent
part: the lexeme 1.5e3 stops after 1.5. -/
def scanNumAfterDigits (cs : List Char) : List Char → List Char × List Char
  | [] => (cs.takeWhile isDigitChar, [])
  | c :: r2 =>
    if c = '.' then
      (cs.takeWhile isDigitChar ++ c :: r2.takeWhile isDigitChar, r2.dropWhile isDigitChar)
    else if c = 'e' ∨ c = 'E' then
      match r2 with
      | s :: r3 =>
        if s = '+' ∨ s = '-' then
          (cs.takeWhile isDigitChar ++ c :: s :: r3.takeWhile isDigitChar,
            r3.dropWhile isDigitChar)
        else
          (cs.takeWhile isDigitChar ++ c :: r2.takeWhile isDigitChar,
            r2.dropWhile isDigitChar)
      | [] => (cs.takeWhile isDigitChar ++ [c], [])
    else (cs.takeWhile isDigitChar, c :: r2)

def scanNumTail (cs : List Char) : List Char × List Char :=
  scanNumAfterDigits cs (cs.dropWhile isDigitChar)

/-- scanNumber (part_001 lines 453 to 486): after a minus sign one more
character is consumed unconditionally before the digit loop. -/
def scanNumber (c0 : Char) (cs : List Char) : List Char × List Char :=
  if c0 = '-' then
    match cs with
    | [] => ([c0], [])
    | c1 :: r => (c0 :: c1 :: (scanNumTail r).1, (scanNumTail r).2)
  else (c0 :: (scanNumTail cs).1, (scanNumTail cs).2)

/-- Keyword classification at the end of scanIdentifier (part_001 lines
497 to 505). -/
def identTokType (v : String) : TokenType :=
  if v = "true" ∨ v = "false" then .boolean
  else if v = "null" then .nullTok
  else .ident

/-- The classification step of nextToken (part_001 lines 357 to 389) on
the input remaining after the whitespace skip, with start the absolute
position of that remainder.  A character outside every class is consumed
and yields an eof-typed token, silently ending the token stream. -/
def nextTokenAt : List Char → Nat → Token × (List Char × Nat)
  | [], start => (mkTok .eof [] start, ([], start))
  | c :: cs', start =>
    if c = '{' then (mkTok .lbrace [c] start, (cs', start + 1))
    else if c = '}' then (mkTok .rbrace [c] start, (cs', start + 1))
    else if c = '[' then (mkTok .lbracket [c] start, (cs', start + 1))
    else if c = ']' then (mkTok .rbracket [c] start, (cs', start + 1))
    else if c = ':' then
      match cs' with
      | ':' :: cs'' => (mkTok .coloncolon [':', ':'] start, (cs'', start + 2))
      | _ => (mkTok .colon [c] start, (cs', start + 1))
    else if c = ',' then (mkTok .comma [c] start, (cs', start + 1))
    else if c = '"' then
      let p := scanStringTail cs'
      (mkTok .str ('"' :: p.1) start, (p.2, start + 1 + p.1.length))
    else if c = '-' ∨ isDigitChar c then
      let p := scanNumber c cs'
      (mkTok .number p.1 start, (p.2, start + p.1.length))
    else if isAlphaGo c then
      let lexeme := c :: cs'.takeWhile isAlphaNumGo
      (mkTok (identTokType (String.mk lexeme)) lexeme start,
        (cs'.dropWhile isAlphaNumGo, start + lexeme.length))
    else (mkTok .eof [c] start, (cs', start + 1))

/-- nextToken (part_001 lines 352 to 390): skip whitespace, then classify
one token. -/
def nextToken (cs : List Char) (pos : Nat) : Token × (List Char × Nat) :=
  nextTokenAt (cs.dropWhile goIsSpace) (pos + (cs.takeWhile goIsSpace).length)

/-- The token stream the parser can observe: the parser never steps past
an eof-typed token (every nextToken call in the parser is guarded by the
type of the current token), so the stream ends at the first one.  Every
non-eof token consumes at least one character, hence the fuel. -/
def tokenizeAux : Nat → List Char → Nat → List Token
  | 0, _, _ => []
  | fuel + 1, cs, pos =>
    let r := nextToken cs pos
    if r.1.typ = .eof then [] else r.1 :: tokenizeAux fuel r.2.1 r.2.2

def tokenize (s : String) : List Token := tokenizeAux (s.data.length + 1) s.data 0

/-! ## Parser (part_001 lines 516 to 742) -/

/-- Parse failures of part_001, one constructor per fmt.Errorf message,
plus fuelOut, the out-of-fuel marker of the embedding: a result that is
fuelOut for every fuel denotes an infinite loop of the Go parser. -/
inductive PErr where
  | fuelOut
  | unexpectedToken (typ : TokenType) (pos : Nat)
  | expectedKey (pos : Nat)
  | expectedColon (pos : Nat)
  | unclosedObject
  | unclosedArray
deriving Repr, DecidableEq

/-- The lexer of part_001 returns eof-typed tokens forever once the input
is exhausted; the head of an empty stream models that.  The parser only
ever reads the typ field of such a token. -/
def eofTok : Token := ⟨.eof, "", 0⟩

def curT (ts : List Token) : Token := ts.headD eofTok

/-- Go map assignment obj key value on an association list: replace the
value of an existing key in place, append a missing key. -/
def insertKV : List (String × Value) → String → Value → List (String × Value)
  | [], k, v => [(k, v)]
  | (k', v') :: rest, k, v =>
    if k' = k then (k', v) :: rest else (k', v') :: insertKV rest k v

/-- isAllWhitespace from part_001 lines 735 to 742. -/
def isAllWhitespaceB (s : String) : Bool := s.data.all goIsSpace

mutual

/-- parseValue from part_001 lines 539 to 575: dispatch on the current
token type.  A string token is unquoted with the lexeme as fallback when
Unquote fails; a number token with a dot or exponent mark is a float,
otherwise ParseInt with the error dropped; a bare identifier is a string
value. -/
def parseValueF : Nat → List Token → Except PErr (Value × List Token)
  | 0, _ => .error .fuelOut
  | f + 1, ts =>
    let t := curT ts
    match t.typ with
    | .lbrace => parseObjectF f ts
    | .lbracket => parseArrayF f ts
    | .str => .ok (.vstr ((goUnquote t.value).getD t.value), ts.tail)
    | .number =>
      if hasDotE t.value then .ok (.vfloat t.value, ts.tail)
      else .ok (.vint (goParseInt64 t.value), ts.tail)
    | .boolean => .ok (.vbool (t.value == "true"), ts.tail)
    | .nullTok => .ok (.vnull, ts.tail)
    | .ident => .ok (.vstr t.value, ts.tail)
    | typ => .error (.unexpectedToken typ t.pos)

/-- parseObject from part_001 lines 577 to 615: consume the open brace and
run the entry loop. -/
def parseObjectF : Nat → List Token → Except PErr (Value × List Token)
  | 0, _ => .error .fuelOut
  | f + 1, ts => parseObjectLoopF f [] ts.tail

/-- The entry loop of parseObject: until a close brace or end of input,
read a key (identifier, or string unquoted with the empty string on
Unquote failure), a colon, a value, and an optional comma.  End of input
before the close brace is the unclosed object error. -/
def parseObjectLoopF : Nat → List (String × Value) → List Token → Except PErr (Value × List Token)
  | 0, _, _ => .error .fuelOut
  | f + 1, obj, ts =>
    let t := curT ts
    if t.typ = .rbrace then .ok (.vobj obj, ts.tail)
    else if t.typ = .eof then .error .unclosedObject
    else if t.typ = .ident ∨ t.typ = .str then
      let key := if t.typ = .str then (goUnquote t.value).getD "" else t.value
      let ts1 := ts.tail
      if (curT ts1).typ = .colon then
        match parseValueF f ts1.tail with
        | .error e => .error e
        | .ok (v, ts2) =>
          let ts3 := if (curT ts2).typ = .comma then ts2.tail else ts2
          parseObjectLoopF f (insertKV obj key v) ts3
      else .error (.expectedColon (curT ts1).pos)
    else .error (.expectedKey t.pos)

/-- parseArray from part_001 lines 617 to 664: consume the open bracket,
skip one number token as a size annotation whenever one follows, then
branch on a brace-introduced tabular header. -/
def parseArrayF : Nat → List Token → Except PErr (Value × List Token)
  | 0, _ => .error .fuelOut
  | f + 1, ts =>
    let ts1 := ts.tail
    let ts2 := if (curT ts1).typ = .number then ts1.tail else ts1
    if (curT ts2).typ = .lbrace then
      match parseTableKeysF f [] ts2.tail with
      | .error e => .error e
      | .ok (tableKeys, ts3) =>
        let ts4 := if (curT ts3).typ = .rbrace then ts3.tail else ts3
        let ts5 := if (curT ts4).typ = .colon then ts4.tail else ts4
        if tableKeys.isEmpty then parseArrayLoopF f [] ts5
        else parseTableFormatF f tableKeys [] ts5
    else parseArrayLoopF f [] ts2

/-- The element loop of parseArray: until a close bracket or end of input,
parse a value and an optional comma; end of input is the unclosed array
error. -/
def parseArrayLoopF : Nat → List Value → List Token → Except PErr (Value × List Token)
  | 0, _, _ => .error .fuelOut
  | f + 1, arr, ts =>
    let t := curT ts
    if t.typ = .rbracket then .ok (.varr arr, ts.tail)
    else if t.typ = .eof then .error .unclosedArray
    else
      match parseValueF f ts with
      | .error e => .error e
      | .ok (v, ts2) =>
        let ts3 := if (curT ts2).typ = .comma then ts2.tail else ts2
        parseArrayLoopF f (arr ++ [v]) ts3

/-- parseTableKeys from part_001 lines 666 to 685: until a close brace or
end of input, collect identifier keys and unquoted string keys and skip
commas.  A token of any other type is consumed by no branch, so the Go
loop spins forever on it; here the fuel runs out instead, whatever the
fuel. -/
def parseTableKeysF : Nat → List String → List Token → Except PErr (List String × List Token)
  | 0, _, _ => .error .fuelOut
  | f + 1, keys, ts =>
    let t := curT ts
    if t.typ = .rbrace ∨ t.typ = .eof then .ok (keys, ts)
    else
      let s1 : List String × List Token :=
        if t.typ = .ident then (keys ++ [t.value], ts.tail)
        else if t.typ = .str then (keys ++ [(goUnquote t.value).getD ""], ts.tail)
        else (keys, ts)
      let ts2 := if (curT s1.2).typ = .comma then s1.2.tail else s1.2
      parseTableKeysF f s1.1 ts2

/-- parseTableFormat from part_001 lines 687 to 733: one row per loop
turn, a row being one value per declared key assembled into an object;
empty rows are dropped.  On a close bracket or end of input the trailing
defensive skip loop runs with its condition already false, the close
bracket is consumed when present, and the rows are returned with no
missing-bracket check. -/
def parseTableFormatF : Nat → List String → List Value → List Token → Except PErr (Value × List Token)
  | 0, _, _, _ => .error .fuelOut
  | f + 1, keys, arr, ts =>
    let t := curT ts
    if t.typ = .rbracket then .ok (.varr arr, ts.tail)
    else if t.typ = .eof then .ok (.varr arr, ts)
    else if t.typ = .ident ∧ isAllWhitespaceB t.value then
      parseTableFormatF f keys arr ts.tail
    else
      match parseRowF f keys [] ts with
      | .error e => .error e
      | .ok (obj, ts2) =>
        parseTableFormatF f keys (if obj.isEmpty then arr else arr ++ [.vobj obj]) ts2

/-- The per-key inner loop of a tabular row: stop early at end of input,
parse one value per key, and between keys (index below the last) skip one
comma. -/
def parseRowF : Nat → List String → List (String × Value) → List Token → Except PErr (List (String × Value) × List Token)
  | 0, _, _, _ => .error .fuelOut
  | _ + 1, [], obj, ts => .ok (obj, ts)
  | f + 1, k :: krest, obj, ts =>
    if (curT ts).typ = .eof then .ok (obj, ts)
    else
      match parseValueF f ts with
      | .error e => .error e
      | .ok (v, ts2) =>
        let ts3 := if ¬krest.isEmpty ∧ (curT ts2).typ = .comma then ts2.tail else ts2
        parseRowF f krest (insertKV obj k v) ts3

end

/-- parse from part_001 lines 535 to 537: one top-level parseValue, the
rest of the stream left unread. -/
def parseF (fuel : Nat) (ts : List Token) : Except PErr Value :=
  (parseValueF fuel ts).map Prod.fst

/-- Decode from part_001 lines 61 to 65.  The fuel is generous: every
recursion of the Go parser that consumes tokens descends through at most
a handful of fuel steps per consumed token, so a terminating Go run fits;
a fuelOut that persists for every fuel marks a Go infinite loop. -/
def decode (s : String) : Except PErr Value :=
  let ts := tokenize s
  parseF (10 * ts.length + 16) ts

/-- The character classes that nextToken recognises: punctuation, the
string quote, a number start, or an identifier start. -/
def recognizedChar (c : Char) : Bool :=
  c == '{' || c == '}' || c == '[' || c == ']' || c == ':' || c == ',' ||
  c == '"' || c == '-' || isDigitChar c || isAlphaGo c

/-- Modelled from the spec, section 4.1, object rendering, for comparison
with the code: emit an open brace, then for each key, sorted ascending,
on its own line indented by depth plus one times IndentSize, the key, a
colon and a space, then the recursively encoded value (the rendered pairs
are a parameter); entries are comma-terminated except the last; close
with a brace on its own line indented to the own depth of the object; a
zero-entry object is the two braces with no internal newline.  The code
additionally writes the own indent of the object before the open brace,
which is the amendment of C6. -/
def specObjectLayout (sz : Nat) (depth : Nat) (rendered : List (String × String)) : String :=
  if rendered = [] then "\x7b\x7d"
  else
    "\x7b\n" ++
    goJoin (rendered.map (fun p => spaces ((depth + 1) * sz) ++ p.1 ++ ": " ++ p.2)) ",\n" ++
    "\n" ++ spaces (depth * sz) ++ "\x7d"

/-! ## Families for the flat round-trip and unclosed-input statements

The following definitions describe flat maps and arrays of scalar values
and their rendered texts and token streams, used to state C1 and C3. -/

/-- The observable part of a token, its type and lexeme; positions only
feed error messages. -/
def tokAbs (t : Token) : TokenType × String := (t.typ, t.value)

/-- The token stream from a given suffix of the input and position, with
the canonical sufficient fuel. -/
def tokensFrom (cs : List Char) (pos : Nat) : List Token :=
  tokenizeAux (cs.length + 1) cs pos

/-- Keys that lex as one identifier token and are not keyword lexemes. -/
def safeKey (k : String) : Bool :=
  match k.data with
  | [] => false
  | c :: cs =>
    isAlphaGo c && cs.all isAlphaNumGo && !(k == "true" || k == "false" || k == "null")

/-- Scalar values of the flat families: int64-range integers, booleans,
and strings of code points below 0x80 (where the quoting model is exact,
see quoteChar). -/
def flatScalar : Value → Bool
  | .vint n => decide (int64Min ≤ n ∧ n ≤ int64Max)
  | .vbool _ => true
  | .vstr s => s.data.all (fun c => c.toNat < 0x80)
  | _ => false

/-- The text the encoder emits for a flat scalar. -/
def scalText : Value → String
  | .vint n => toString n
  | .vbool b => toString b
  | .vstr s => goQuote s
  | _ => ""

/-- Type and lexeme of the one token the lexer produces from a flat
scalar text. -/
def scalTokAbs : Value → TokenType × String
  | .vint n => (.number, toString n)
  | .vbool b => (.boolean, toString b)
  | .vstr s => (.str, goQuote s)
  | _ => (.eof, "")

/-- The token shapes of a flat object body: key, colon, value, and a
comma after every entry but the last. -/
def entryToksAbs : List (String × Value) → List (TokenType × String)
  | [] => []
  | [(k, v)] => [(.ident, k), (.colon, ":"), scalTokAbs v]
  | (k, v) :: rest =>
    (.ident, k) :: (.colon, ":") :: scalTokAbs v :: (.comma, ",") :: entryToksAbs rest

/-- The token shapes of a flat array body: values with commas between. -/
def elemToksAbs : List Value → List (TokenType × String)
  | [] => []
  | [v] => [scalTokAbs v]
  | v :: rest => scalTokAbs v :: (.comma, ",") :: elemToksAbs rest

/-- The text of a flat object body as encodeMap emits it (entryLines over
scalar renderings): one entry per line at indent ind + sz, comma on all
but the last entry. -/
def flatEntriesText (sz ind : Nat) : List (String × Value) → String
  | [] => ""
  | [(k, v)] => spaces (ind + sz) ++ k ++ ": " ++ scalText v ++ "\n"
  | (k, v) :: rest =>
    spaces (ind + sz) ++ k ++ ": " ++ scalText v ++ ",\n" ++ flatEntriesText sz ind rest

/-- The text of a flat array body as the plain branch of encodeArray
emits it (elemLines over scalar renderings). -/
def flatElemsText (sz ind : Nat) : List Value → String
  | [] => ""
  | [v] => spaces (ind + sz) ++ scalText v
  | v :: rest => spaces (ind + sz) ++ scalText v ++ ",\n" ++ flatElemsText sz ind rest

/-- The object the parser accumulates from a flat entry list: repeated Go
map assignment. -/
def accFold (acc : List (String × Value)) (es : List (String × Value)) : List (String × Value) :=
  es.foldl (fun a p => insertKV a p.1 p.2) acc

/-- The characters that can follow a scalar lexeme inside an encoded flat
body: the entry or element separators and the two closers.  None of them
continues a number, an identifier or a keyword lexeme. -/
def boundaryChar (c : Char) : Bool :=
  c == ',' || c == '\n' || c == ']' || c == '}'

/-! ## Sanity checks: concrete runs of the embedded codec, matching the
test expectations of the repository. -/

set_option maxHeartbeats 2000000

example : goQuote "Alice" = "\"Alice\"" := rfl
example : spaces 2 = "  " := rfl
example : sortPairs [("name", 1), ("age", 2)] = [("age", 2), ("name", 1)] := rfl
example : encodeValue (.vint 1) DefaultOptions 0 = .ok "1" := rfl
example : renderEntries [("a", .vint 1)] DefaultOptions 2 = .ok [("a", "1")] := rfl
example : buildMapText 2 0 [("a", "1")] = "\x7b\n  a: 1\n\x7d" := rfl

example :
    Encode (.vobj [("name", .vstr "Alice"), ("age", .vint 30)]) DefaultOptions =
      .ok "\x7b\n  age: 30,\n  name: \"Alice\"\n\x7d" := rfl

theorem encodeValue_vobj (es : List (String × Value)) (o : Options) (ind : Nat) :
    encodeValue (.vobj es) o ind = encodeMap es o ind := rfl

theorem encodeValue_varr (xs : List Value) (o : Options) (ind : Nat) :
    encodeValue (.varr xs) o ind = encodeArray xs o ind := rfl

example : tokenize "\x7ba: 1\x7d" =
    [⟨.lbrace, "\x7b", 0⟩, ⟨.ident, "a", 1⟩, ⟨.colon, ":", 2⟩,
     ⟨.number, "1", 4⟩, ⟨.rbrace, "\x7d", 5⟩] := rfl

example : decode "\x7b\n  age: 30,\n  name: \"Alice\"\n\x7d" =
    .ok (.vobj [("age", .vint 30), ("name", .vstr "Alice")]) := rfl

example : decode "[ 2 \x7bid, name\x7d:\n  1, \"Alice\"\n  2, \"Bob\"\n]" =
    .ok (.varr [.vobj [("id", .vint 1), ("name", .vstr "Alice")],
                .vobj [("id", .vint 2), ("name", .vstr "Bob")]]) := rfl

example : decode "\x7b\n  a: 1" = .error .unclosedObject := rfl
example : decode "[\n  \"x\"" = .error .unclosedArray := rfl
example : decode "[\x7bid\x7d: 1" = .ok (.varr [.vobj [("id", .vint 1)]]) := rfl
example : decode "[1, 2, 3]" = .error (.unexpectedToken .comma 2) := rfl
example : decode "[1 2, 3]" = .ok (.varr [.vint 2, .vint 3]) := rfl
example : decode "[ 3 1, 2, 3]" = .ok (.varr [.vint 1, .vint 2, .vint 3]) := rfl

set_option maxHeartbeats 200000

/-! ## Claim C8 -/

set_option maxHeartbeats 1000000 in
/-- C8: encoding the two-element array of objects with id and name fields
for Alice and Bob under default options produces exactly the tabular text
of the spec (and of TestEncode in the test file). -/
theorem c8_tabular_example_encoding :
    Encode (.varr [.vobj [("id", .vint 1), ("name", .vstr "Alice")],
                   .vobj [("id", .vint 2), ("name", .vstr "Bob")]]) DefaultOptions =
      .ok "[ 2 \x7bid, name\x7d:\n  1, \"Alice\"\n  2, \"Bob\"\n]" := rfl

/-! ## Claim C10 -/

set_option maxHeartbeats 1000000 in
/-- C10 counterexample: the claim says decode of the text with brackets
around 1, 2, 3 separated by commas yields the two-element array of 2 and
3.  It does not: after the 1 is consumed as a size annotation the current
token is the comma, on which parseValue fails, so decode returns the
unexpected-token error at position 2. -/
theorem c10_counterexample :
    decode "[1, 2, 3]" ≠ .ok (.varr [.vint 2, .vint 3]) := by
  have h : decode "[1, 2, 3]" = .error (.unexpectedToken .comma 2) := rfl
  rw [h]
  exact fun hc => Except.noConfusion hc

set_option maxHeartbeats 1000000 in
/-- C10 amended: parse_array does consume a following number token as a
discarded annotation even when none was written, but the comma after the
swallowed first element is then a parse error rather than being skipped:
decode of the comma-separated text fails at the comma, decode of the same
text without that first comma drops the 1 and yields the array of 2 and
3, and a real annotation as in the third input is skipped as intended. -/
theorem c10_amended :
    decode "[1, 2, 3]" = .error (.unexpectedToken .comma 2) ∧
    decode "[1 2, 3]" = .ok (.varr [.vint 2, .vint 3]) ∧
    decode "[ 3 1, 2, 3]" = .ok (.varr [.vint 1, .vint 2, .vint 3]) :=
  ⟨rfl, rfl, rfl⟩

/-! ## Claim C4 -/

/-- Every encode error is the nil panic: EErr has a single constructor. -/
theorem eerr_eq_nilPanic (e : EErr) : e = .nilPanic := by cases e; rfl

/-- A nil value among the entries of a map aborts the rendering of the
entry list with the reflect panic. -/
theorem renderEntries_err_of_null (es : List (String × Value)) (o : Options) (i : Nat)
    (k : String) (h : (k, Value.vnull) ∈ es) :
    renderEntries es o i = .error .nilPanic := by
  induction es with
  | nil => simp at h
  | cons hd rest ih =>
    obtain ⟨k₀, v₀⟩ := hd
    rcases List.mem_cons.mp h with heq | hmem
    · obtain ⟨hk, hv⟩ := Prod.mk.injEq .. ▸ heq
      simp only [renderEntries]
      rw [← hv]
      rfl
    · simp only [renderEntries]
      cases hv : encodeValue v₀ o i with
      | error e => rw [eerr_eq_nilPanic e]
      | ok s => rw [ih hmem]

/-- Encoding an object with a nil field value fails with the reflect
panic, for every option record. -/
theorem encode_obj_null_panics (o : Options) (es : List (String × Value)) (k : String)
    (h : (k, Value.vnull) ∈ es) :
    Encode (.vobj es) o = .error .nilPanic := by
  show encodeValue (.vobj es) o 0 = .error .nilPanic
  rw [encodeValue_vobj, encodeMap, renderEntries_err_of_null es o (0 + o.IndentSize) k h]

set_option maxHeartbeats 1000000 in
/-- C4 counterexample: a Null as an object field value is not emitted as
an empty string after the key and colon; encodeValue reaches the default
branch of its kind switch with the zero reflect.Value and panics, so
Encode produces no text at all. -/
theorem c4_counterexample :
    Encode (.vobj [("k", .vnull)]) DefaultOptions = .error .nilPanic := rfl

set_option maxHeartbeats 1000000 in
/-- C4 amended: a Null inside a tabular cell is emitted as the literal
text null (first conjunct, a full encode of a tabular array with a null
cell), while a Null appearing as an object field value makes the encoder
panic in reflect instead of emitting anything (second conjunct, for every
entry list containing a null field and every option record). -/
theorem c4_amended :
    (Encode (.varr [.vobj [("a", .vnull)], .vobj [("a", .vint 1)]]) DefaultOptions =
      .ok "[ 2 \x7ba\x7d:\n  null\n  1\n]") ∧
    (∀ (o : Options) (es : List (String × Value)) (k : String),
      (k, Value.vnull) ∈ es → Encode (.vobj es) o = .error .nilPanic) :=
  ⟨rfl, encode_obj_null_panics⟩

set_option maxHeartbeats 1000000 in
/-- C4 witness: the amended statement applied at a concrete input. -/
theorem c4_witness :
    Encode (.vobj [("x", .vnull), ("y", .vint 2)]) DefaultOptions = .error .nilPanic :=
  c4_amended.2 DefaultOptions [("x", .vnull), ("y", .vint 2)] "x" (by simp)

/-! ## Claim C7 -/

/-- C7: when the character after the skipped whitespace falls in no
recognised class, nextToken consumes it and yields an eof-typed token at
once, leaving the rest of the input behind unreported: the token stream
simply ends there. -/
theorem c7_unrecognized_char_truncates (cs : List Char) (pos : Nat) (c : Char)
    (r : List Char) (hdrop : cs.dropWhile goIsSpace = c :: r)
    (hc : recognizedChar c = false) :
    (nextToken cs pos).1.typ = .eof ∧ (nextToken cs pos).2.1 = r := by
  simp only [recognizedChar, Bool.or_eq_false_iff, beq_eq_false_iff_ne, ne_eq] at hc
  obtain ⟨⟨⟨⟨⟨⟨⟨⟨⟨h1, h2⟩, h3⟩, h4⟩, h5⟩, h6⟩, h7⟩, h8⟩, h9⟩, h10⟩ := hc
  unfold nextToken
  rw [hdrop]
  unfold nextTokenAt
  simp [h1, h2, h3, h4, h5, h6, h7, h8, h9, h10, mkTok]

/-- C7 witness: a tilde is recognised by no class, so the lexer ends the
token stream on it although input remains. -/
theorem c7_witness :
    (nextToken ['~', '1'] 0).1.typ = .eof ∧ (nextToken ['~', '1'] 0).2.1 = ['1'] :=
  c7_unrecognized_char_truncates ['~', '1'] 0 '~' ['1'] rfl rfl

/-! ## Claim C2 -/

/-- parseTableKeys consumes nothing when the current token is a number:
the identifier and string branches do not fire and the comma skip does
not either, so the Go loop repeats with an unchanged state forever.  In
the embedding the fuel runs out instead, for every fuel. -/
theorem parseTableKeysF_stuck (f : Nat) (keys : List String) (t : Token) (ts : List Token)
    (hn : t.typ = .number) :
    parseTableKeysF f keys (t :: ts) = .error .fuelOut := by
  induction f with
  | zero => rfl
  | succ f ih =>
    simp only [parseTableKeysF, curT, List.headD, hn]
    simp only [show (TokenType.number = TokenType.rbrace ∨ TokenType.number = TokenType.eof) ↔
      False by simp, if_false]
    simpa [hn] using ih

/-- C2 is a code bug: the spec requires every parser production to consume
a token or stop at end of input, but on the input bracket brace 1 the
parseTableKeys loop does neither and the Go parser spins forever.  The
embedded parser returns the out-of-fuel marker for every fuel, decode
included. -/
theorem c2_parser_diverges_on_table_header :
    (∀ fuel : Nat, parseF fuel (tokenize "[\x7b1") = .error .fuelOut) ∧
    decode "[\x7b1" = .error .fuelOut := by
  have htok : tokenize "[\x7b1" =
      [⟨.lbracket, "[", 0⟩, ⟨.lbrace, "\x7b", 1⟩, ⟨.number, "1", 2⟩] := rfl
  have key : ∀ fuel : Nat, parseF fuel (tokenize "[\x7b1") = .error .fuelOut := by
    intro fuel
    rw [htok]
    match fuel with
    | 0 => rfl
    | 1 => rfl
    | f + 2 =>
      have hstuck := parseTableKeysF_stuck f [] ⟨.number, "1", 2⟩ [] rfl
      simp [parseF, parseValueF, parseArrayF, curT, hstuck, Except.map]
  exact ⟨key, key _⟩

/-! ## Order facts about the Go string order -/

theorem charsLe_total (x y : List Char) : charsLe x y = true ∨ charsLe y x = true := by
  induction x generalizing y with
  | nil => simp [charsLe]
  | cons c cs ih =>
    cases y with
    | nil => simp [charsLe]
    | cons d ds =>
      by_cases h1 : c.toNat < d.toNat
      · simp [charsLe, h1]
      · by_cases h2 : d.toNat < c.toNat
        · simp [charsLe, h1, h2]
        · simpa [charsLe, h1, h2] using ih ds

theorem charsLe_trans (x y z : List Char) (hxy : charsLe x y = true)
    (hyz : charsLe y z = true) : charsLe x z = true := by
  induction x generalizing y z with
  | nil => simp [charsLe]
  | cons c cs ih =>
    cases y with
    | nil => simp [charsLe] at hxy
    | cons d ds =>
      cases z with
      | nil => simp [charsLe] at hyz
      | cons e es =>
        by_cases h1 : c.toNat < d.toNat
        · by_cases h3 : d.toNat < e.toNat
          · have : c.toNat < e.toNat := Nat.lt_trans h1 h3
            simp [charsLe, this]
          · by_cases h4 : e.toNat < d.toNat
            · simp [charsLe, h3, h4] at hyz
            · have : c.toNat < e.toNat := by omega
              simp [charsLe, this]
        · by_cases h2 : d.toNat < c.toNat
          · simp [charsLe, h1, h2] at hxy
          · by_cases h3 : d.toNat < e.toNat
            · have : c.toNat < e.toNat := by omega
              simp [charsLe, this]
            · by_cases h4 : e.toNat < d.toNat
              · simp [charsLe, h3, h4] at hyz
              · have h5 : ¬ c.toNat < e.toNat := by omega
                have h6 : ¬ e.toNat < c.toNat := by omega
                simp only [charsLe, h1, h2, if_false] at hxy
                simp only [charsLe, h3, h4, if_false] at hyz
                simp only [charsLe, h5, h6, if_false]
                exact ih ds es hxy hyz

instance : IsTotal String strRel := ⟨fun a b => charsLe_total a.data b.data⟩

instance : IsTrans String strRel :=
  ⟨fun a b c hab hbc => charsLe_trans a.data b.data c.data hab hbc⟩

instance {α : Type} : IsTotal (String × α) pairRel :=
  ⟨fun a b => charsLe_total a.1.data b.1.data⟩

instance {α : Type} : IsTrans (String × α) pairRel :=
  ⟨fun a b c hab hbc => charsLe_trans a.1.data b.1.data c.1.data hab hbc⟩

/-! ## Claim C5 -/

theorem lookup_isSome_iff {α : Type} (k : String) (es : List (String × α)) :
    (es.lookup k).isSome = true ↔ k ∈ es.map Prod.fst := by
  induction es with
  | nil => simp [List.lookup]
  | cons hd rest ih =>
    obtain ⟨a, b⟩ := hd
    by_cases h : k = a
    · subst h
      simp [List.lookup]
    · simp only [List.lookup, beq_eq_false_iff_ne.mpr h, List.map_cons, List.mem_cons]
      simp [ih, h]

theorem hasKey_iff_mem_objKeys (v : Value) (k : String) :
    hasKey v k = true ↔ k ∈ objKeys v := by
  cases v <;> simp [hasKey, objKeys, entriesOf, List.mem_dedup, lookup_isSome_iff]

theorem mem_getCommonKeys (first : Value) (rest : List Value) (k : String) :
    k ∈ getCommonKeys (first :: rest) ↔ ∀ x ∈ first :: rest, hasKey x k = true := by
  show k ∈ List.insertionSort strRel _ ↔ _
  rw [(List.perm_insertionSort strRel _).mem_iff]
  simp only [List.mem_filter, List.all_eq_true, List.forall_mem_cons, ← hasKey_iff_mem_objKeys]
  try tauto

/-- C5: the detector accepts exactly the non-empty all-object sequences
with a non-empty common key set, and the key list it computes is exactly
the intersection of the key sets (membership characterisation over every
element), without duplicates, sorted ascending in the byte-wise
lexicographic string order of Go sort.Strings. -/
theorem c5_tabular_eligibility (xs : List Value) :
    (canUseTabularFormat xs = true ↔
      xs ≠ [] ∧ (∀ x ∈ xs, isObjB x = true) ∧ (∃ k, ∀ x ∈ xs, hasKey x k = true)) ∧
    (xs ≠ [] →
      (getCommonKeys xs).Sorted strRel ∧ (getCommonKeys xs).Nodup ∧
      (∀ k, k ∈ getCommonKeys xs ↔ ∀ x ∈ xs, hasKey x k = true)) := by
  constructor
  · cases xs with
    | nil => simp [canUseTabularFormat]
    | cons first rest =>
      have hexp : canUseTabularFormat (first :: rest) =
          ((first :: rest).all isObjB && !(getCommonKeys (first :: rest)).isEmpty) := rfl
      rw [hexp, Bool.and_eq_true, List.all_eq_true]
      constructor
      · rintro ⟨hall, hne⟩
        have hne' : getCommonKeys (first :: rest) ≠ [] := by
          intro h
          rw [h] at hne
          exact absurd hne (by simp)
        obtain ⟨k, hk⟩ := List.exists_mem_of_ne_nil _ hne'
        exact ⟨by simp, hall, k, (mem_getCommonKeys first rest k).mp hk⟩
      · rintro ⟨-, hall, k, hk⟩
        refine ⟨hall, ?_⟩
        have hmem := (mem_getCommonKeys first rest k).mpr hk
        cases h : getCommonKeys (first :: rest) with
        | nil => exact absurd (h ▸ hmem) (by simp)
        | cons a l => rfl
  · intro hne
    match xs, hne with
    | first :: rest, _ =>
      refine ⟨List.sorted_insertionSort strRel _,
        ((List.perm_insertionSort strRel _).nodup_iff).mpr
          (((List.map Prod.fst (entriesOf first)).nodup_dedup).filter _), ?_⟩
      exact fun k => mem_getCommonKeys first rest k

/-- C5 witness: a concrete pair of objects sharing only the key b. -/
theorem c5_witness :
    (getCommonKeys [Value.vobj [("b", .vint 1), ("a", .vint 2)],
                    Value.vobj [("b", .vint 3)]]).Sorted strRel ∧
    (getCommonKeys [Value.vobj [("b", .vint 1), ("a", .vint 2)],
                    Value.vobj [("b", .vint 3)]]).Nodup ∧
    (∀ k, k ∈ getCommonKeys [Value.vobj [("b", .vint 1), ("a", .vint 2)],
                             Value.vobj [("b", .vint 3)]] ↔
      ∀ x ∈ [Value.vobj [("b", .vint 1), ("a", .vint 2)], Value.vobj [("b", .vint 3)]],
        hasKey x k = true) :=
  (c5_tabular_eligibility _).2 (by simp)

/-! ## Claim C9 -/

mutual

theorem encodeValue_kf : ∀ (v : Value) (o : Options) (b : Bool) (ind : Nat),
    encodeValue v {o with KeyFolding := b} ind = encodeValue v o ind
  | .vobj es, o, b, ind => by
    simp only [encodeValue]
    rw [renderEntries_kf es o b (ind + o.IndentSize)]
  | .varr xs, o, b, ind => by
    simp only [encodeValue]
    rw [renderElems_kf xs o b (ind + o.IndentSize)]
  | .vstr _, _, _, _ => rfl
  | .vbool _, _, _, _ => rfl
  | .vint _, _, _, _ => rfl
  | .vfloat _, _, _, _ => rfl
  | .vnull, _, _, _ => rfl

theorem renderEntries_kf : ∀ (es : List (String × Value)) (o : Options) (b : Bool) (ind : Nat),
    renderEntries es {o with KeyFolding := b} ind = renderEntries es o ind
  | [], _, _, _ => rfl
  | (k, v) :: rest, o, b, ind => by
    simp only [renderEntries]
    rw [encodeValue_kf v o b ind, renderEntries_kf rest o b ind]

theorem renderElems_kf : ∀ (xs : List Value) (o : Options) (b : Bool) (ind : Nat),
    renderElems xs {o with KeyFolding := b} ind = renderElems xs o ind
  | [], _, _, _ => rfl
  | v :: rest, o, b, ind => by
    simp only [renderElems]
    rw [encodeValue_kf v o b ind, renderElems_kf rest o b ind]

end

/-- C9: the KeyFolding flag is read by no function of the encode path, so
for every value and every option record the output of Encode with the
flag set is the output with the flag cleared, character for character and
error for error. -/
theorem c9_key_folding_no_effect (v : Value) (o : Options) :
    Encode v {o with KeyFolding := true} = Encode v {o with KeyFolding := false} := by
  cases v with
  | vnull => rfl
  | vbool b => rfl
  | vint n => rfl
  | vfloat s => rfl
  | vstr s => rfl
  | vobj es =>
    show encodeValue (.vobj es) _ 0 = encodeValue (.vobj es) _ 0
    rw [encodeValue_kf (.vobj es) o true 0, encodeValue_kf (.vobj es) o false 0]
  | varr xs =>
    show encodeValue (.varr xs) _ 0 = encodeValue (.varr xs) _ 0
    rw [encodeValue_kf (.varr xs) o true 0, encodeValue_kf (.varr xs) o false 0]

/-- C9 witness: the noninterference statement at a concrete nested value
and the default options. -/
theorem c9_witness :
    Encode (.vobj [("a", .vint 1), ("b", .varr [.vstr "x"])])
        {DefaultOptions with KeyFolding := true} =
      Encode (.vobj [("a", .vint 1), ("b", .varr [.vstr "x"])])
        {DefaultOptions with KeyFolding := false} :=
  c9_key_folding_no_effect (.vobj [("a", .vint 1), ("b", .varr [.vstr "x"])]) DefaultOptions

/-! ## Claim C6 -/

set_option maxHeartbeats 1000000 in
/-- C6 counterexample: the recursively encoded value of a nested object
does not begin with its open brace: encodeMap writes the own indent of
the object first, so after the key, colon and space of the outer entry
two further spaces appear.  The claim, which puts the open brace right
after the key and colon, gives the second text; the code produces the
first. -/
theorem c6_counterexample :
    Encode (.vobj [("a", .vobj [("b", .vint 1)])]) DefaultOptions =
      .ok "\x7b\n  a:   \x7b\n    b: 1\n  \x7d\n\x7d" ∧
    Encode (.vobj [("a", .vobj [("b", .vint 1)])]) DefaultOptions ≠
      .ok "\x7b\n  a: \x7b\n    b: 1\n  \x7d\n\x7d" := by
  refine ⟨rfl, ?_⟩
  intro h
  rw [show Encode (.vobj [("a", .vobj [("b", .vint 1)])]) DefaultOptions =
      .ok "\x7b\n  a:   \x7b\n    b: 1\n  \x7d\n\x7d" from rfl] at h
  injection h with h2
  exact absurd h2 (by decide)

theorem entryLines_join (sz ind : Nat) (hd : String × String) (tl : List (String × String)) :
    entryLines sz ind (hd :: tl) =
      goJoin ((hd :: tl).map (fun p => spaces (ind + sz) ++ p.1 ++ ": " ++ p.2)) ",\n" ++ "\n" := by
  induction tl generalizing hd with
  | nil => rfl
  | cons hd2 tl2 ih =>
    obtain ⟨k, s⟩ := hd
    show spaces (ind + sz) ++ k ++ ": " ++ s ++ ",\n" ++ entryLines sz ind (hd2 :: tl2) = _
    rw [ih hd2]
    show _ = (spaces (ind + sz) ++ k ++ ": " ++ s) ++ ",\n" ++
      (goJoin ((hd2 :: tl2).map (fun p => spaces (ind + sz) ++ p.1 ++ ": " ++ p.2)) ",\n") ++ "\n"
    apply String.ext
    simp [String.data_append]

/-- The builder text of encodeMap is the spec layout of section 4.1 with
the own indent of the object prefixed. -/
theorem buildMapText_spec (sz depth : Nat) (rs : List (String × String)) :
    buildMapText sz (depth * sz) rs = spaces (depth * sz) ++ specObjectLayout sz depth rs := by
  cases rs with
  | nil =>
    show spaces (depth * sz) ++ "\x7b" ++ "" ++ entryLines sz (depth * sz) [] ++ "" ++ "\x7d" = _
    simp only [specObjectLayout, if_pos rfl, entryLines]
    apply String.ext
    simp [String.data_append]
  | cons hd tl =>
    show spaces (depth * sz) ++ "\x7b" ++ "\n" ++ entryLines sz (depth * sz) (hd :: tl) ++
        spaces (depth * sz) ++ "\x7d" = _
    rw [entryLines_join]
    unfold specObjectLayout
    rw [if_neg (List.cons_ne_nil hd tl)]
    have harith : depth * sz + sz = (depth + 1) * sz := by ring
    rw [harith]
    apply String.ext
    simp [String.data_append]

/-- C6 amended: for every object at depth d (indent d times IndentSize),
whenever the entries render without a nil panic, encodeMap emits the own
indent of the object, then exactly the layout of section 4.1: open brace,
each key in ascending sorted order on its own line indented by d plus one
times IndentSize as key, colon, space and the recursively encoded value,
entries comma-terminated except the last, the close brace on its own line
at the own indent of the object, and a zero-entry object rendered as the
two braces.  The sole divergence from the claim is the leading indent. -/
theorem c6_amended (es : List (String × Value)) (o : Options) (depth : Nat)
    (rendered : List (String × String))
    (h : renderEntries es o (depth * o.IndentSize + o.IndentSize) = .ok rendered) :
    (sortPairs rendered).Sorted pairRel ∧
    encodeMap es o (depth * o.IndentSize) =
      .ok (spaces (depth * o.IndentSize) ++
        specObjectLayout o.IndentSize depth (sortPairs rendered)) := by
  refine ⟨List.sorted_insertionSort pairRel rendered, ?_⟩
  show (match renderEntries es o (depth * o.IndentSize + o.IndentSize) with
    | Except.error e => Except.error e
    | Except.ok rendered =>
        Except.ok (buildMapText o.IndentSize (depth * o.IndentSize) (sortPairs rendered)))
      = _
  rw [h]
  show Except.ok (buildMapText o.IndentSize (depth * o.IndentSize) (sortPairs rendered)) = _
  rw [buildMapText_spec o.IndentSize depth (sortPairs rendered)]

set_option maxHeartbeats 1000000 in
/-- C6 witness: the amended statement at a concrete two-entry object one
level deep, the hypothesis discharged by evaluation. -/
theorem c6_witness :
    (sortPairs [("b", "2"), ("a", "1")]).Sorted pairRel ∧
    encodeMap [("b", .vint 2), ("a", .vint 1)] DefaultOptions (1 * DefaultOptions.IndentSize) =
      .ok (spaces (1 * DefaultOptions.IndentSize) ++
        specObjectLayout DefaultOptions.IndentSize 1 (sortPairs [("b", "2"), ("a", "1")])) :=
  c6_amended [("b", .vint 2), ("a", .vint 1)] DefaultOptions 1 [("b", "2"), ("a", "1")] rfl

/-! ## Lexer stream infrastructure -/

theorem tokenize_eq_tokensFrom (s : String) : tokenize s = tokensFrom s.data 0 := rfl

theorem scanStringTail_len (cs : List Char) : (scanStringTail cs).2.length ≤ cs.length := by
  induction cs using scanStringTail.induct <;> simp_all [scanStringTail] <;> omega

theorem length_dropWhile_le {p : Char → Bool} (l : List Char) :
    (l.dropWhile p).length ≤ l.length := by
  induction l with
  | nil => simp
  | cons a l ih =>
    by_cases h : p a
    · rw [List.dropWhile_cons_of_pos h]
      exact Nat.le_succ_of_le ih
    · rw [List.dropWhile_cons_of_neg (by simpa using h)]

theorem scanNumTail_len (cs : List Char) : (scanNumTail cs).2.length ≤ cs.length := by
  have hsum : (cs.takeWhile isDigitChar).length + (cs.dropWhile isDigitChar).length
      = cs.length := by
    rw [← List.length_append, List.takeWhile_append_dropWhile]
  unfold scanNumTail scanNumAfterDigits
  split
  · simp
  · rename_i c r2 hr1
    rw [hr1] at hsum
    simp only [List.length_cons] at hsum
    split_ifs with hdot he
    · show (r2.dropWhile isDigitChar).length ≤ cs.length
      have := length_dropWhile_le (p := isDigitChar) (l := r2)
      omega
    · split
      next s r3 =>
        have h3 := length_dropWhile_le (p := isDigitChar) (l := r3)
        have h4 := length_dropWhile_le (p := isDigitChar) (l := s :: r3)
        simp only [List.length_cons] at hsum h4
        split_ifs with hs
        · show (r3.dropWhile isDigitChar).length ≤ cs.length
          omega
        · show ((s :: r3).dropWhile isDigitChar).length ≤ cs.length
          omega
      next =>
        show ([] : List Char).length ≤ cs.length
        exact Nat.zero_le _
    · show (c :: r2).length ≤ cs.length
      simp only [List.length_cons]
      omega

theorem scanNumber_len (c : Char) (cs : List Char) :
    (scanNumber c cs).2.length ≤ cs.length := by
  by_cases hc : c = '-'
  · subst hc
    cases cs with
    | nil => simp [scanNumber]
    | cons c1 r =>
      have h := scanNumTail_len r
      simp [scanNumber]
      omega
  · simpa [scanNumber, hc] using scanNumTail_len cs

theorem nextTokenAt_consumes (rest : List Char) (start : Nat) :
    (nextTokenAt rest start).1.typ = .eof ∨ (nextTokenAt rest start).2.1.length < rest.length := by
  cases rest with
  | nil => exact Or.inl rfl
  | cons c cs' =>
    unfold nextTokenAt
    simp only []
    split_ifs with h1 h2 h3 h4 h5 h6 h7 h8 h9
    · exact Or.inr (by simp)
    · exact Or.inr (by simp)
    · exact Or.inr (by simp)
    · exact Or.inr (by simp)
    · refine Or.inr ?_
      split <;> simp_all <;> omega
    · exact Or.inr (by simp)
    · refine Or.inr ?_
      have := scanStringTail_len cs'
      simp only [List.length_cons]
      omega
    · refine Or.inr ?_
      have := scanNumber_len c cs'
      simp only [List.length_cons]
      omega
    · refine Or.inr ?_
      have := length_dropWhile_le (p := isAlphaNumGo) (l := cs')
      simp only [List.length_cons]
      omega
    · exact Or.inr (by simp)

theorem nextToken_consumes (cs : List Char) (pos : Nat) :
    (nextToken cs pos).1.typ = .eof ∨ (nextToken cs pos).2.1.length < cs.length := by
  have hsum : (cs.takeWhile goIsSpace).length + (cs.dropWhile goIsSpace).length
      = cs.length := by
    rw [← List.length_append, List.takeWhile_append_dropWhile]
  rcases nextTokenAt_consumes (cs.dropWhile goIsSpace)
      (pos + (cs.takeWhile goIsSpace).length) with h | h
  · exact Or.inl h
  · exact Or.inr (by unfold nextToken; omega)

theorem tokenizeAux_fuel : ∀ (n : Nat) (cs : List Char) (f pos : Nat),
    cs.length ≤ n → cs.length + 1 ≤ f → tokenizeAux f cs pos = tokensFrom cs pos := by
  intro n
  induction n with
  | zero =>
    intro cs f pos hn hf
    have hcs : cs = [] := List.length_eq_zero.mp (Nat.le_zero.mp hn)
    subst hcs
    match f, hf with
    | f + 1, _ => rfl
  | succ n ih =>
    intro cs f pos hn hf
    match f, hf with
    | f + 1, _ =>
      show tokenizeAux (f + 1) cs pos = tokenizeAux (cs.length + 1) cs pos
      simp only [tokenizeAux]
      by_cases heof : (nextToken cs pos).1.typ = .eof
      · simp [heof]
      · have hlt : (nextToken cs pos).2.1.length < cs.length :=
          (nextToken_consumes cs pos).resolve_left heof
        have e1 : tokenizeAux f (nextToken cs pos).2.1 (nextToken cs pos).2.2 =
            tokensFrom (nextToken cs pos).2.1 (nextToken cs pos).2.2 :=
          ih _ _ _ (by omega) (by omega)
        have e2 : tokenizeAux cs.length (nextToken cs pos).2.1 (nextToken cs pos).2.2 =
            tokensFrom (nextToken cs pos).2.1 (nextToken cs pos).2.2 :=
          ih _ _ _ (by omega) (by omega)
        simp [heof, e1, e2]

theorem tokenizeAux_eq (cs : List Char) (f pos : Nat) (hf : cs.length + 1 ≤ f) :
    tokenizeAux f cs pos = tokensFrom cs pos :=
  tokenizeAux_fuel cs.length cs f pos le_rfl hf

theorem tokensFrom_nil (pos : Nat) : tokensFrom [] pos = [] := rfl

/-- One stream step: a non-eof token prepends to the stream of the
remaining input. -/
theorem tokensFrom_cons (cs : List Char) (pos : Nat)
    (hne : (nextToken cs pos).1.typ ≠ .eof) :
    tokensFrom cs pos = (nextToken cs pos).1 ::
      tokensFrom (nextToken cs pos).2.1 (nextToken cs pos).2.2 := by
  have hlt : (nextToken cs pos).2.1.length < cs.length :=
    (nextToken_consumes cs pos).resolve_left hne
  show tokenizeAux (cs.length + 1) cs pos = _
  simp only [tokenizeAux]
  rw [if_neg hne]
  rw [tokenizeAux_eq _ _ _ (by omega)]

theorem tokensFrom_eof (cs : List Char) (pos : Nat)
    (h : (nextToken cs pos).1.typ = .eof) : tokensFrom cs pos = [] := by
  show tokenizeAux (cs.length + 1) cs pos = _
  simp only [tokenizeAux]
  rw [if_pos h]

theorem nextToken_ws (w : Char) (cs : List Char) (pos : Nat) (hw : goIsSpace w = true) :
    nextToken (w :: cs) pos = nextToken cs (pos + 1) := by
  unfold nextToken
  rw [List.dropWhile_cons_of_pos (by simpa using hw),
    List.takeWhile_cons_of_pos (by simpa using hw)]
  simp only [List.length_cons]
  congr 1
  omega

theorem tokensFrom_ws (w : Char) (cs : List Char) (pos : Nat) (hw : goIsSpace w = true) :
    tokensFrom (w :: cs) pos = tokensFrom cs (pos + 1) := by
  by_cases heof : (nextToken cs (pos + 1)).1.typ = .eof
  · rw [tokensFrom_eof _ _ (by rw [nextToken_ws w cs pos hw]; exact heof),
      tokensFrom_eof _ _ heof]
  · rw [tokensFrom_cons cs (pos + 1) heof]
    have hne : (nextToken (w :: cs) pos).1.typ ≠ .eof := by
      rw [nextToken_ws w cs pos hw]; exact heof
    rw [tokensFrom_cons (w :: cs) pos hne]
    rw [nextToken_ws w cs pos hw]

/-- Indentation peel: a block of spaces moves the stream position only. -/
theorem tokensFrom_spaces (m : Nat) (cs : List Char) (pos : Nat) :
    tokensFrom (List.replicate m ' ' ++ cs) pos = tokensFrom cs (pos + m) := by
  induction m generalizing pos with
  | zero => simp
  | succ m ih =>
    show tokensFrom (' ' :: (List.replicate m ' ' ++ cs)) pos = _
    rw [tokensFrom_ws ' ' _ pos (by decide), ih (pos + 1)]
    congr 1
    omega

/-! ## Character class facts -/

theorem char_toNat_inj {c d : Char} (h : c.toNat = d.toNat) : c = d := by
  rw [← Char.ofNat_toNat c, ← Char.ofNat_toNat d, h]

theorem char_ne_of_toNat_ne {c d : Char} (h : c.toNat ≠ d.toNat) : c ≠ d :=
  fun he => h (he ▸ rfl)

theorem isAlphaGo_iff (c : Char) : isAlphaGo c = true ↔
    (0x61 ≤ c.toNat ∧ c.toNat ≤ 0x7a) ∨ (0x41 ≤ c.toNat ∧ c.toNat ≤ 0x5a) ∨
      c.toNat = 0x5f := by
  unfold isAlphaGo
  simp only [Bool.or_eq_true, Bool.and_eq_true, decide_eq_true_eq, beq_iff_eq]
  constructor
  · rintro ((h | h) | h)
    · exact Or.inl h
    · exact Or.inr (Or.inl h)
    · subst h
      exact Or.inr (Or.inr rfl)
  · rintro (h | h | h)
    · exact Or.inl (Or.inl h)
    · exact Or.inl (Or.inr h)
    · exact Or.inr (char_toNat_inj (c := c) (d := '_') h)

theorem isDigitChar_iff (c : Char) : isDigitChar c = true ↔
    0x30 ≤ c.toNat ∧ c.toNat ≤ 0x39 := by
  simp [isDigitChar]

theorem goIsSpace_iff (c : Char) : goIsSpace c = true ↔
    (0x09 ≤ c.toNat ∧ c.toNat ≤ 0x0d) ∨ c.toNat = 0x20 ∨ c.toNat = 0x85 ∨
    c.toNat = 0xa0 ∨ c.toNat = 0x1680 ∨ (0x2000 ≤ c.toNat ∧ c.toNat ≤ 0x200a) ∨
    c.toNat = 0x2028 ∨ c.toNat = 0x2029 ∨ c.toNat = 0x202f ∨ c.toNat = 0x205f ∨
    c.toNat = 0x3000 := by
  simp only [goIsSpace, Bool.or_eq_true, Bool.and_eq_true, decide_eq_true_eq, beq_iff_eq,
    Nat.beq_eq_true_eq]
  omega

theorem notSpace_of_alpha (c : Char) (h : isAlphaGo c = true) : goIsSpace c = false := by
  rw [isAlphaGo_iff] at h
  rw [← Bool.not_eq_true, goIsSpace_iff]
  omega

theorem notSpace_of_digit (c : Char) (h : isDigitChar c = true) : goIsSpace c = false := by
  rw [isDigitChar_iff] at h
  rw [← Bool.not_eq_true, goIsSpace_iff]
  omega

theorem alpha_branch_conditions (c : Char) (h : isAlphaGo c = true) :
    c ≠ '{' ∧ c ≠ '}' ∧ c ≠ '[' ∧ c ≠ ']' ∧ c ≠ ':' ∧ c ≠ ',' ∧ c ≠ '"' ∧
      ¬(c = '-' ∨ isDigitChar c = true) := by
  rw [isAlphaGo_iff] at h
  refine ⟨char_ne_of_toNat_ne (by show c.toNat ≠ 0x7b; omega),
    char_ne_of_toNat_ne (by show c.toNat ≠ 0x7d; omega),
    char_ne_of_toNat_ne (by show c.toNat ≠ 0x5b; omega),
    char_ne_of_toNat_ne (by show c.toNat ≠ 0x5d; omega),
    char_ne_of_toNat_ne (by show c.toNat ≠ 0x3a; omega),
    char_ne_of_toNat_ne (by show c.toNat ≠ 0x2c; omega),
    char_ne_of_toNat_ne (by show c.toNat ≠ 0x22; omega), ?_⟩
  rintro (hm | hd)
  · subst hm
    revert h
    decide
  · rw [isDigitChar_iff] at hd
    omega

theorem digit_branch_conditions (c : Char) (h : isDigitChar c = true) :
    c ≠ '{' ∧ c ≠ '}' ∧ c ≠ '[' ∧ c ≠ ']' ∧ c ≠ ':' ∧ c ≠ ',' ∧ c ≠ '"' := by
  rw [isDigitChar_iff] at h
  exact ⟨char_ne_of_toNat_ne (by show c.toNat ≠ 0x7b; omega),
    char_ne_of_toNat_ne (by show c.toNat ≠ 0x7d; omega),
    char_ne_of_toNat_ne (by show c.toNat ≠ 0x5b; omega),
    char_ne_of_toNat_ne (by show c.toNat ≠ 0x5d; omega),
    char_ne_of_toNat_ne (by show c.toNat ≠ 0x3a; omega),
    char_ne_of_toNat_ne (by show c.toNat ≠ 0x2c; omega),
    char_ne_of_toNat_ne (by show c.toNat ≠ 0x22; omega)⟩

theorem takeWhile_append_exact {p : Char → Bool} (xs ys : List Char)
    (h1 : ∀ x ∈ xs, p x = true) (h2 : ∀ x, ys.head? = some x → p x = false) :
    (xs ++ ys).takeWhile p = xs ∧ (xs ++ ys).dropWhile p = ys := by
  induction xs with
  | nil =>
    cases ys with
    | nil => simp
    | cons y ys' =>
      have hy := h2 y rfl
      constructor
      · rw [List.nil_append]
        exact List.takeWhile_cons_of_neg (by simp [hy])
      · rw [List.nil_append]
        exact List.dropWhile_cons_of_neg (by simp [hy])
  | cons x xs' ih =>
    have hx := h1 x (by simp)
    have hih := ih (fun a ha => h1 a (by simp [ha]))
    constructor
    · show ((x :: (xs' ++ ys)).takeWhile p) = x :: xs'
      rw [List.takeWhile_cons_of_pos hx, hih.1]
    · show ((x :: (xs' ++ ys)).dropWhile p) = ys
      rw [List.dropWhile_cons_of_pos hx, hih.2]

/-! ## Shape lemmas for nextToken -/

theorem nextToken_notSpace (c : Char) (cs : List Char) (pos : Nat)
    (hc : goIsSpace c = false) :
    nextToken (c :: cs) pos = nextTokenAt (c :: cs) pos := by
  unfold nextToken
  rw [List.dropWhile_cons_of_neg (by simp [hc]), List.takeWhile_cons_of_neg (by simp [hc])]
  simp

theorem nextToken_lbrace (r : List Char) (pos : Nat) :
    nextToken ('{' :: r) pos = (mkTok .lbrace ['{'] pos, (r, pos + 1)) := by
  rw [nextToken_notSpace _ _ _ (by decide)]
  rfl

theorem nextToken_rbrace (r : List Char) (pos : Nat) :
    nextToken ('}' :: r) pos = (mkTok .rbrace ['}'] pos, (r, pos + 1)) := by
  rw [nextToken_notSpace _ _ _ (by decide)]
  rfl

theorem nextToken_lbracket (r : List Char) (pos : Nat) :
    nextToken ('[' :: r) pos = (mkTok .lbracket ['['] pos, (r, pos + 1)) := by
  rw [nextToken_notSpace _ _ _ (by decide)]
  rfl

theorem nextToken_rbracket (r : List Char) (pos : Nat) :
    nextToken (']' :: r) pos = (mkTok .rbracket [']'] pos, (r, pos + 1)) := by
  rw [nextToken_notSpace _ _ _ (by decide)]
  rfl

theorem nextToken_comma (r : List Char) (pos : Nat) :
    nextToken (',' :: r) pos = (mkTok .comma [','] pos, (r, pos + 1)) := by
  rw [nextToken_notSpace _ _ _ (by decide)]
  rfl

theorem nextToken_colon_space (r : List Char) (pos : Nat) :
    nextToken (':' :: ' ' :: r) pos = (mkTok .colon [':'] pos, (' ' :: r, pos + 1)) := by
  rw [nextToken_notSpace _ _ _ (by decide)]
  rfl

theorem nextToken_ident (c : Char) (cs r : List Char) (pos : Nat)
    (hc : isAlphaGo c = true) (hcs : ∀ x ∈ cs, isAlphaNumGo x = true)
    (hr : ∀ x, r.head? = some x → isAlphaNumGo x = false) :
    nextToken ((c :: cs) ++ r) pos =
      (mkTok (identTokType (String.mk (c :: cs))) (c :: cs) pos,
        (r, pos + (cs.length + 1))) := by
  obtain ⟨h1, h2, h3, h4, h5, h6, h7, h8⟩ := alpha_branch_conditions c hc
  have hspan := takeWhile_append_exact (p := isAlphaNumGo) cs r hcs hr
  rw [show (c :: cs) ++ r = c :: (cs ++ r) from rfl,
    nextToken_notSpace _ _ _ (notSpace_of_alpha c hc)]
  simp only [nextTokenAt]
  rw [if_neg h1, if_neg h2, if_neg h3, if_neg h4, if_neg h5, if_neg h6, if_neg h7,
    if_neg h8, if_pos hc]
  rw [hspan.1, hspan.2]
  simp [mkTok]

/-! ## Decimal representation facts -/

theorem digitChar_spec (k : Nat) (h : k < 10) :
    isDigitChar (Nat.digitChar k) = true ∧ (Nat.digitChar k).toNat = 0x30 + k := by
  interval_cases k <;> exact ⟨by decide, by decide⟩

theorem lt_ten_pow (n : Nat) : n < 10 ^ (n + 1) := by
  induction n with
  | zero => norm_num
  | succ n ih =>
    have h : 10 ^ (n + 1) ≤ 10 ^ (n + 2) := Nat.pow_le_pow_right (by norm_num) (by omega)
    omega

theorem toDigitsCore_spec : ∀ (fuel : Nat), ∀ (n : Nat) (acc : List Char),
    n < 10 ^ fuel → 0 < fuel →
    ∃ ds, Nat.toDigitsCore 10 fuel n acc = ds ++ acc ∧ ds ≠ [] ∧
      (∀ c ∈ ds, isDigitChar c = true) ∧
      ds.foldl (fun a c => a * 10 + (c.toNat - 0x30)) 0 = n := by
  intro fuel
  induction fuel with
  | zero => exact fun n acc _ h => absurd h (by omega)
  | succ f ih =>
    intro n acc hn _
    have hmod := Nat.mod_lt n (y := 10) (by norm_num)
    by_cases hdiv : n / 10 = 0
    · have hlt : n < 10 := by omega
      refine ⟨[Nat.digitChar (n % 10)], ?_, by simp, ?_, ?_⟩
      · show Nat.toDigitsCore 10 (f + 1) n acc = _
        unfold Nat.toDigitsCore
        simp [hdiv]
      · intro c hc
        simp only [List.mem_singleton] at hc
        subst hc
        exact (digitChar_spec (n % 10) hmod).1
      · have hd := (digitChar_spec (n % 10) hmod).2
        simp only [List.foldl_cons, List.foldl_nil, hd]
        omega
    · have hge : 10 ≤ n := by
        by_contra hlt
        exact hdiv (Nat.div_eq_of_lt (by omega))
      have hf : 0 < f := by
        by_contra h0
        have hf0 : f = 0 := by omega
        subst hf0
        simp at hn
        omega
      have hn' : n / 10 < 10 ^ f := by
        rw [Nat.div_lt_iff_lt_mul (by norm_num)]
        calc n < 10 ^ (f + 1) := hn
        _ = 10 ^ f * 10 := by ring
      obtain ⟨ds, heq, hne, hdig, hval⟩ := ih (n / 10) (Nat.digitChar (n % 10) :: acc) hn' hf
      refine ⟨ds ++ [Nat.digitChar (n % 10)], ?_, by simp, ?_, ?_⟩
      · show Nat.toDigitsCore 10 (f + 1) n acc = _
        unfold Nat.toDigitsCore
        simp only [hdiv, if_false]
        rw [heq]
        simp
      · intro c hc
        rcases List.mem_append.mp hc with h | h
        · exact hdig c h
        · simp only [List.mem_singleton] at h
          subst h
          exact (digitChar_spec (n % 10) hmod).1
      · rw [List.foldl_append]
        simp only [List.foldl_cons, List.foldl_nil, hval,
          (digitChar_spec (n % 10) hmod).2]
        omega

theorem natRepr_digits (n : Nat) :
    (Nat.repr n).data ≠ [] ∧ (∀ c ∈ (Nat.repr n).data, isDigitChar c = true) ∧
      (Nat.repr n).data.foldl (fun a c => a * 10 + (c.toNat - 0x30)) 0 = n := by
  obtain ⟨ds, heq, hne, hdig, hval⟩ :=
    toDigitsCore_spec (n + 1) n [] (lt_ten_pow n) (by omega)
  have hdata : (Nat.repr n).data = ds := by
    show (Nat.toDigits 10 n).asString.data = ds
    rw [show Nat.toDigits 10 n = Nat.toDigitsCore 10 (n + 1) n [] from rfl, heq]
    simp [List.asString]
  rw [hdata]
  exact ⟨hne, hdig, hval⟩

theorem digitsVal_eq (ds : List Char) (hne : ds ≠ [])
    (hdig : ∀ c ∈ ds, isDigitChar c = true) :
    digitsVal ds = some (ds.foldl (fun a c => a * 10 + (c.toNat - 0x30)) 0) := by
  cases ds with
  | nil => exact absurd rfl hne
  | cons c cs =>
    show (if (c :: cs).all isDigitChar then some _ else none) = _
    rw [if_pos (by rw [List.all_eq_true]; exact hdig)]

theorem toString_int_ofNat (m : Nat) : toString (Int.ofNat m) = Nat.repr m := rfl

theorem toString_int_negSucc (m : Nat) :
    (toString (Int.negSucc m)).data = '-' :: (Nat.repr (m + 1)).data := by
  show ("-" ++ Nat.repr (m + 1)).data = _
  rw [String.data_append]
  rfl

/-- ParseInt recovers every in-range integer from its %d rendering. -/
theorem goParseInt64_toString (n : Int) (h1 : int64Min ≤ n) (h2 : n ≤ int64Max) :
    goParseInt64 (toString n) = n := by
  cases n with
  | ofNat m =>
    obtain ⟨hne, hdig, hval⟩ := natRepr_digits m
    show goParseInt64Chars (toString (Int.ofNat m)).data = Int.ofNat m
    rw [toString_int_ofNat]
    cases hdata : (Nat.repr m).data with
    | nil => exact absurd hdata hne
    | cons c cs =>
      have hc := hdig c (by rw [hdata]; simp)
      rw [isDigitChar_iff] at hc
      show goParseInt64Chars (c :: cs) = Int.ofNat m
      simp only [goParseInt64Chars]
      rw [if_neg (char_ne_of_toNat_ne (show c.toNat ≠ 0x2b by omega)),
        if_neg (char_ne_of_toNat_ne (show c.toNat ≠ 0x2d by omega)),
        ← hdata, digitsVal_eq _ hne hdig, hval]
      show (if (m : Int) > int64Max then int64Max else (m : Int)) = Int.ofNat m
      rw [if_neg (by exact not_lt.mpr h2)]
      rfl
  | negSucc m =>
    obtain ⟨hne, hdig, hval⟩ := natRepr_digits (m + 1)
    show goParseInt64Chars (toString (Int.negSucc m)).data = Int.negSucc m
    rw [toString_int_negSucc]
    show goParseInt64Chars ('-' :: (Nat.repr (m + 1)).data) = Int.negSucc m
    simp only [goParseInt64Chars]
    rw [if_pos trivial, digitsVal_eq _ hne hdig, hval]
    show (if -((m + 1 : Nat) : Int) < int64Min then int64Min else -((m + 1 : Nat) : Int))
      = Int.negSucc m
    have hrepr : Int.negSucc m = -((m + 1 : Nat) : Int) := by
      rw [Int.negSucc_eq]
      push_cast
      ring
    rw [if_neg (by rw [← hrepr]; exact not_lt.mpr h1), hrepr]

theorem hasDotE_toString_int (n : Int) : hasDotE (toString n) = false := by
  rw [← Bool.not_eq_true, hasDotE, List.any_eq_true]
  rintro ⟨c, hc, hm⟩
  have hdigit : isDigitChar c = true ∨ c = '-' := by
    cases n with
    | ofNat m =>
      rw [toString_int_ofNat] at hc
      exact Or.inl ((natRepr_digits m).2.1 c hc)
    | negSucc m =>
      rw [toString_int_negSucc] at hc
      rcases List.mem_cons.mp hc with h | h
      · exact Or.inr h
      · exact Or.inl ((natRepr_digits (m + 1)).2.1 c h)

  simp only [Bool.or_eq_true, beq_iff_eq] at hm
  rcases hdigit with h | h
  · rw [isDigitChar_iff] at h
    rcases hm with (hm | hm) | hm <;> (rw [hm] at h; revert h; decide)
  · subst h
    rcases hm with (hm | hm) | hm <;> exact absurd hm (by decide)

theorem scanNumTail_exact (ds r : List Char) (hds : ∀ c ∈ ds, isDigitChar c = true)
    (hr : ∀ x, r.head? = some x →
      isDigitChar x = false ∧ x ≠ '.' ∧ x ≠ 'e' ∧ x ≠ 'E') :
    scanNumTail (ds ++ r) = (ds, r) := by
  cases r with
  | nil =>
    have hspan := takeWhile_append_exact (p := isDigitChar) ds [] hds (by simp)
    unfold scanNumTail
    rw [hspan.2]
    simp only [scanNumAfterDigits]
    rw [hspan.1]
  | cons x r2 =>
    obtain ⟨hxd, hdot, he, hE⟩ := hr x rfl
    have hspan := takeWhile_append_exact (p := isDigitChar) ds (x :: r2) hds
      (fun y hy => by
        simp only [List.head?] at hy
        cases hy
        exact hxd)
    unfold scanNumTail
    rw [hspan.2]
    simp only [scanNumAfterDigits]
    rw [if_neg hdot, if_neg (by rintro (h | h); exact he h; exact hE h), hspan.1]

theorem nextToken_int (n : Int) (r : List Char) (pos : Nat)
    (hr : ∀ x, r.head? = some x →
      isDigitChar x = false ∧ x ≠ '.' ∧ x ≠ 'e' ∧ x ≠ 'E') :
    nextToken ((toString n).data ++ r) pos =
      (mkTok .number (toString n).data pos, (r, pos + (toString n).data.length)) := by
  cases n with
  | ofNat m =>
    obtain ⟨hne, hdig, -⟩ := natRepr_digits m
    rw [show toString (Int.ofNat m) = Nat.repr m from rfl]
    cases hdata : (Nat.repr m).data with
    | nil => exact absurd hdata hne
    | cons c cs =>
      rw [hdata] at hdig
      have hc : isDigitChar c = true := hdig c (by simp)
      have hcs : ∀ x ∈ cs, isDigitChar x = true := fun x hx => hdig x (by simp [hx])
      obtain ⟨p1, p2, p3, p4, p5, p6, p7⟩ := digit_branch_conditions c hc
      have hcm : c ≠ '-' := by
        refine char_ne_of_toNat_ne ?_
        rw [isDigitChar_iff] at hc
        show c.toNat ≠ 0x2d
        omega
      rw [show (c :: cs) ++ r = c :: (cs ++ r) from rfl,
        nextToken_notSpace _ _ _ (notSpace_of_digit c hc)]
      simp only [nextTokenAt]
      rw [if_neg p1, if_neg p2, if_neg p3, if_neg p4, if_neg p5, if_neg p6, if_neg p7,
        if_pos (Or.inr hc)]
      unfold scanNumber
      rw [if_neg hcm, scanNumTail_exact cs r hcs hr]
  | negSucc m =>
    obtain ⟨hne, hdig, -⟩ := natRepr_digits (m + 1)
    rw [show ((toString (Int.negSucc m)).data ++ r)
        = '-' :: ((Nat.repr (m + 1)).data ++ r) by rw [toString_int_negSucc]; rfl,
      toString_int_negSucc]
    cases hdata : (Nat.repr (m + 1)).data with
    | nil => exact absurd hdata hne
    | cons c1 cs =>
      rw [hdata] at hdig
      have hc1 : isDigitChar c1 = true := hdig c1 (by simp)
      have hcs : ∀ x ∈ cs, isDigitChar x = true := fun x hx => hdig x (by simp [hx])
      have hsn : scanNumber '-' (c1 :: (cs ++ r)) = ('-' :: c1 :: cs, r) := by
        unfold scanNumber
        rw [if_pos rfl]
        show ('-' :: c1 :: (scanNumTail (cs ++ r)).1, (scanNumTail (cs ++ r)).2) = _
        rw [scanNumTail_exact cs r hcs hr]
      rw [nextToken_notSpace _ _ _ (by decide)]
      simp only [nextTokenAt]
      simp [hsn, mkTok]

/-! ## Quoting and unquoting facts -/

theorem scanStringTail_other (c : Char) (cs : List Char) (hq : c ≠ '"') (hb : c ≠ '\\') :
    scanStringTail (c :: cs) = (c :: (scanStringTail cs).1, (scanStringTail cs).2) := by
  conv_lhs => rw [scanStringTail.eq_def]
  split
  · simp_all
  · next heq =>
    rw [List.cons.injEq] at heq
    exact absurd heq.1 hq
  · next heq =>
    rw [List.cons.injEq] at heq
    exact absurd heq.1 hb
  · next heq =>
    rw [List.cons.injEq] at heq
    exact absurd heq.1 hb
  · next c2 r2 heq =>
    rw [List.cons.injEq] at heq
    rw [heq.1, heq.2]

theorem hexDigitChar_ne_quote (k : Nat) (h : k < 16) :
    hexDigitChar k ≠ '"' ∧ hexDigitChar k ≠ '\\' := by
  interval_cases k <;> exact ⟨by decide, by decide⟩

theorem hexVal_hexDigitChar (k : Nat) (h : k < 16) : hexVal (hexDigitChar k) = some k := by
  interval_cases k <;> decide

set_option maxHeartbeats 800000 in
theorem scanStringTail_quoteChar (c : Char) (rest : List Char) :
    scanStringTail (quoteChar c ++ rest)
      = (quoteChar c ++ (scanStringTail rest).1, (scanStringTail rest).2) := by
  have step2 : ∀ (e : Char) (r : List Char),
      scanStringTail ('\\' :: e :: r) =
        ('\\' :: e :: (scanStringTail r).1, (scanStringTail r).2) := fun e r => rfl
  unfold quoteChar
  split_ifs with h1 h2 h3 h4 h5 h6 h7 h8 h9 h10
  · show scanStringTail ('\\' :: c :: rest) = _
    rw [step2]
    rfl
  · rw [not_or] at h1
    show scanStringTail (c :: rest) = _
    rw [scanStringTail_other c _ h1.1 h1.2]
    rfl
  · rw [not_or] at h1
    show scanStringTail (c :: rest) = _
    rw [scanStringTail_other c _ h1.1 h1.2]
    rfl
  · show scanStringTail ('\\' :: 'a' :: rest) = _
    rw [step2]
    rfl
  · show scanStringTail ('\\' :: 'b' :: rest) = _
    rw [step2]
    rfl
  · show scanStringTail ('\\' :: 'f' :: rest) = _
    rw [step2]
    rfl
  · show scanStringTail ('\\' :: 'n' :: rest) = _
    rw [step2]
    rfl
  · show scanStringTail ('\\' :: 'r' :: rest) = _
    rw [step2]
    rfl
  · show scanStringTail ('\\' :: 't' :: rest) = _
    rw [step2]
    rfl
  · show scanStringTail ('\\' :: 'v' :: rest) = _
    rw [step2]
    rfl
  · have hd : c.toNat / 16 < 16 := by omega
    have hm : c.toNat % 16 < 16 := Nat.mod_lt _ (by norm_num)
    have hne1 := hexDigitChar_ne_quote (c.toNat / 16) hd
    have hne2 := hexDigitChar_ne_quote (c.toNat % 16) hm
    show scanStringTail ('\\' :: 'x' :: hexDigitChar (c.toNat / 16) ::
        hexDigitChar (c.toNat % 16) :: rest) = _
    rw [step2, scanStringTail_other _ _ hne1.1 hne1.2,
      scanStringTail_other _ _ hne2.1 hne2.2]
    rfl

theorem scanStringTail_quoted (cs : List Char) (r : List Char) :
    scanStringTail (cs.flatMap quoteChar ++ '"' :: r) = (cs.flatMap quoteChar ++ ['"'], r) := by
  induction cs with
  | nil => rfl
  | cons c cs' ih =>
    rw [List.flatMap_cons, List.append_assoc, scanStringTail_quoteChar, ih]
    simp

theorem unqChars_other (c : Char) (cs : List Char) (hq : c ≠ '"') (hn : c ≠ '\n')
    (hb : c ≠ '\\') : unqChars (c :: cs) = (unqChars cs).map (c :: ·) := by
  show (if c = '"' then none
        else if c = '\n' then none
        else if c = '\\' then unqEsc cs
        else (unqChars cs).map (c :: ·)) = _
  rw [if_neg hq, if_neg hn, if_neg hb]

theorem unqChars_backslash (cs : List Char) : unqChars ('\\' :: cs) = unqEsc cs := rfl

set_option maxHeartbeats 800000 in
theorem unqChars_quoteChar (c : Char) (rest : List Char) :
    unqChars (quoteChar c ++ rest) = (unqChars rest).map (c :: ·) := by
  unfold quoteChar
  split_ifs with h1 h2 h3 h4 h5 h6 h7 h8 h9 h10
  · rcases h1 with h | h
    · subst h
      show unqChars ('\\' :: '"' :: rest) = _
      rw [unqChars_backslash,
        show unqEsc ('"' :: rest) = (unqChars rest).map ('"' :: ·) from rfl]
    · subst h
      show unqChars ('\\' :: '\\' :: rest) = _
      rw [unqChars_backslash,
        show unqEsc ('\\' :: rest) = (unqChars rest).map ('\\' :: ·) from rfl]
  · rw [not_or] at h1
    have hn : c ≠ '\n' := char_ne_of_toNat_ne (by show c.toNat ≠ 0x0a; omega)
    show unqChars (c :: rest) = _
    rw [unqChars_other c _ h1.1 hn h1.2]
  · rw [not_or] at h1
    have hn : c ≠ '\n' := char_ne_of_toNat_ne (by show c.toNat ≠ 0x0a; omega)
    show unqChars (c :: rest) = _
    rw [unqChars_other c _ h1.1 hn h1.2]
  · have hc : c = Char.ofNat 0x07 := char_toNat_inj (by rw [h4]; rfl)
    subst hc
    show unqChars ('\\' :: 'a' :: rest) = _
    rw [unqChars_backslash,
      show unqEsc ('a' :: rest) = (unqChars rest).map (Char.ofNat 0x07 :: ·) from rfl]
  · have hc : c = Char.ofNat 0x08 := char_toNat_inj (by rw [h5]; rfl)
    subst hc
    show unqChars ('\\' :: 'b' :: rest) = _
    rw [unqChars_backslash,
      show unqEsc ('b' :: rest) = (unqChars rest).map (Char.ofNat 0x08 :: ·) from rfl]
  · have hc : c = Char.ofNat 0x0c := char_toNat_inj (by rw [h6]; rfl)
    subst hc
    show unqChars ('\\' :: 'f' :: rest) = _
    rw [unqChars_backslash,
      show unqEsc ('f' :: rest) = (unqChars rest).map (Char.ofNat 0x0c :: ·) from rfl]
  · have hc : c = '\n' := char_toNat_inj (by rw [h7]; rfl)
    subst hc
    show unqChars ('\\' :: 'n' :: rest) = _
    rw [unqChars_backslash,
      show unqEsc ('n' :: rest) = (unqChars rest).map ('\n' :: ·) from rfl]
  · have hc : c = '\r' := char_toNat_inj (by rw [h8]; rfl)
    subst hc
    show unqChars ('\\' :: 'r' :: rest) = _
    rw [unqChars_backslash,
      show unqEsc ('r' :: rest) = (unqChars rest).map ('\r' :: ·) from rfl]
  · have hc : c = '\t' := char_toNat_inj (by rw [h9]; rfl)
    subst hc
    show unqChars ('\\' :: 't' :: rest) = _
    rw [unqChars_backslash,
      show unqEsc ('t' :: rest) = (unqChars rest).map ('\t' :: ·) from rfl]
  · have hc : c = Char.ofNat 0x0b := char_toNat_inj (by rw [h10]; rfl)
    subst hc
    show unqChars ('\\' :: 'v' :: rest) = _
    rw [unqChars_backslash,
      show unqEsc ('v' :: rest) = (unqChars rest).map (Char.ofNat 0x0b :: ·) from rfl]
  · have hd : c.toNat / 16 < 16 := by omega
    have hm : c.toNat % 16 < 16 := Nat.mod_lt _ (by norm_num)
    show unqChars ('\\' :: 'x' :: hexDigitChar (c.toNat / 16) ::
        hexDigitChar (c.toNat % 16) :: rest) = _
    rw [unqChars_backslash,
      show unqEsc ('x' :: hexDigitChar (c.toNat / 16) :: hexDigitChar (c.toNat % 16) :: rest)
        = (match hexVal (hexDigitChar (c.toNat / 16)), hexVal (hexDigitChar (c.toNat % 16)) with
           | some v1, some v2 => (unqChars rest).map (Char.ofNat (v1 * 16 + v2) :: ·)
           | _, _ => none) from rfl,
      hexVal_hexDigitChar _ hd, hexVal_hexDigitChar _ hm]
    show (unqChars rest).map (Char.ofNat (c.toNat / 16 * 16 + c.toNat % 16) :: ·) = _
    rw [show c.toNat / 16 * 16 + c.toNat % 16 = c.toNat by omega, Char.ofNat_toNat]

theorem unqChars_flatMap (cs : List Char) : unqChars (cs.flatMap quoteChar) = some cs := by
  induction cs with
  | nil => rfl
  | cons c cs' ih =>
    rw [List.flatMap_cons, unqChars_quoteChar, ih]
    rfl

theorem goUnquote_goQuote (s : String) : goUnquote (goQuote s) = some s := by
  show goUnquote ⟨'"' :: (s.data.flatMap quoteChar ++ ['"'])⟩ = some s
  unfold goUnquote
  rw [show (⟨'"' :: (s.data.flatMap quoteChar ++ ['"'])⟩ : String).data
      = '"' :: (s.data.flatMap quoteChar ++ ['"']) from rfl]
  show (if (s.data.flatMap quoteChar ++ ['"']).getLast? = some '"' then
      (unqChars (s.data.flatMap quoteChar ++ ['"']).dropLast).map String.mk else none) = some s
  rw [if_pos (List.getLast?_concat _), List.dropLast_concat, unqChars_flatMap]
  rfl

/-! ## Token stream of flat scalar texts -/

theorem nextTokenAt_quote (rest : List Char) (pos : Nat) :
    nextTokenAt ('"' :: rest) pos =
      (mkTok .str ('"' :: (scanStringTail rest).1) pos,
        ((scanStringTail rest).2, pos + 1 + (scanStringTail rest).1.length)) := rfl

theorem nextToken_quoted (s : String) (r : List Char) (pos : Nat) :
    nextToken ((goQuote s).data ++ r) pos =
      (⟨.str, goQuote s, pos⟩, (r, pos + (goQuote s).data.length)) := by
  have hdata : (goQuote s).data ++ r = '"' :: (s.data.flatMap quoteChar ++ '"' :: r) := by
    show ('"' :: s.data.flatMap quoteChar ++ ['"']) ++ r = _
    simp
  rw [hdata, nextToken_notSpace _ _ _ (by decide), nextTokenAt_quote,
    scanStringTail_quoted]
  have hval : mkTok .str ('"' :: (s.data.flatMap quoteChar ++ ['"'])) pos
      = ⟨.str, goQuote s, pos⟩ := by
    show (⟨.str, String.mk ('"' :: (s.data.flatMap quoteChar ++ ['"'])), pos⟩ : Token) = _
    have : String.mk ('"' :: (s.data.flatMap quoteChar ++ ['"'])) = goQuote s := by
      show _ = String.mk ('"' :: s.data.flatMap quoteChar ++ ['"'])
      simp
    rw [this]
  rw [hval]
  have hlen : (goQuote s).data.length = 1 + ((s.data.flatMap quoteChar).length + 1) := by
    show ('"' :: s.data.flatMap quoteChar ++ ['"']).length = _
    simp
    omega
  simp [hlen]
  omega

theorem safeKey_spec (k : String) (h : safeKey k = true) :
    ∃ c cs, k.data = c :: cs ∧ isAlphaGo c = true ∧ (∀ x ∈ cs, isAlphaNumGo x = true) ∧
      identTokType k = .ident := by
  unfold safeKey at h
  split at h
  · exact absurd h (by decide)
  · next c cs heq =>
    simp only [Bool.and_eq_true, Bool.not_eq_true', Bool.or_eq_false_iff, beq_eq_false_iff_ne,
      List.all_eq_true] at h
    refine ⟨c, cs, heq, h.1.1, fun x hx => h.1.2 x hx, ?_⟩
    unfold identTokType
    rw [if_neg (by push_neg; exact ⟨h.2.1.1, h.2.1.2⟩), if_neg h.2.2]

theorem nextToken_key (k : String) (r : List Char) (pos : Nat) (hk : safeKey k = true)
    (hr : ∀ x, r.head? = some x → isAlphaNumGo x = false) :
    nextToken (k.data ++ r) pos = (⟨.ident, k, pos⟩, (r, pos + k.data.length)) := by
  obtain ⟨c, cs, heq, hc, hcs, hty⟩ := safeKey_spec k hk
  have hmk : String.mk (c :: cs) = k := String.ext heq.symm
  rw [heq, nextToken_ident c cs r pos hc hcs hr, hmk, hty]
  simp [mkTok, hmk]

theorem boundary_not_alnum (x : Char) (h : boundaryChar x = true) :
    isAlphaNumGo x = false := by
  simp only [boundaryChar, Bool.or_eq_true, beq_iff_eq] at h
  rcases h with ((h | h) | h) | h <;> subst h <;> decide

theorem boundary_not_num (x : Char) (h : boundaryChar x = true) :
    isDigitChar x = false ∧ x ≠ '.' ∧ x ≠ 'e' ∧ x ≠ 'E' := by
  simp only [boundaryChar, Bool.or_eq_true, beq_iff_eq] at h
  rcases h with ((h | h) | h) | h <;> subst h <;> exact ⟨by decide, by decide, by decide, by decide⟩

theorem scalTok_ne_eof (v : Value) (hv : flatScalar v = true) :
    (scalTokAbs v).1 ≠ .eof := by
  cases v <;> simp_all [flatScalar, scalTokAbs] <;> decide

theorem nextToken_scal (v : Value) (r : List Char) (pos : Nat) (hv : flatScalar v = true)
    (hr : ∀ x, r.head? = some x → boundaryChar x = true) :
    nextToken ((scalText v).data ++ r) pos =
      (⟨(scalTokAbs v).1, (scalTokAbs v).2, pos⟩, (r, pos + (scalText v).data.length)) := by
  cases v with
  | vint n =>
    exact nextToken_int n r pos (fun x hx => boundary_not_num x (hr x hx))
  | vbool b =>
    cases b with
    | true =>
      have := nextToken_ident 't' ['r', 'u', 'e'] r pos (by decide) (by decide)
        (fun x hx => boundary_not_alnum x (hr x hx))
      exact this
    | false =>
      have := nextToken_ident 'f' ['a', 'l', 's', 'e'] r pos (by decide) (by decide)
        (fun x hx => boundary_not_alnum x (hr x hx))
      exact this
  | vstr s => exact nextToken_quoted s r pos
  | vnull => simp [flatScalar] at hv
  | vfloat s => simp [flatScalar] at hv
  | vobj es => simp [flatScalar] at hv
  | varr xs => simp [flatScalar] at hv

/-- Generic one-token stream step. -/
theorem tokensFrom_tok (cs r : List Char) (pos n : Nat) (t : Token)
    (hnt : nextToken (cs ++ r) pos = (t, (r, n))) (hne : t.typ ≠ .eof) :
    tokensFrom (cs ++ r) pos = t :: tokensFrom r n := by
  rw [tokensFrom_cons _ _ (by rw [hnt]; exact hne), hnt]

theorem tokensFrom_scal (v : Value) (r : List Char) (pos : Nat) (hv : flatScalar v = true)
    (hr : ∀ x, r.head? = some x → boundaryChar x = true) :
    tokensFrom ((scalText v).data ++ r) pos =
      ⟨(scalTokAbs v).1, (scalTokAbs v).2, pos⟩ ::
        tokensFrom r (pos + (scalText v).data.length) :=
  tokensFrom_tok _ _ _ _ _ (nextToken_scal v r pos hv hr) (scalTok_ne_eof v hv)

theorem tokensFrom_key (k : String) (r : List Char) (pos : Nat) (hk : safeKey k = true)
    (hr : ∀ x, r.head? = some x → isAlphaNumGo x = false) :
    tokensFrom (k.data ++ r) pos =
      ⟨.ident, k, pos⟩ :: tokensFrom r (pos + k.data.length) :=
  tokensFrom_tok _ _ _ _ _ (nextToken_key k r pos hk hr) (by simp)

theorem tokensFrom_nl (rest : List Char) (pos : Nat) :
    tokensFrom ('\n' :: rest) pos = tokensFrom rest (pos + 1) :=
  tokensFrom_ws '\n' rest pos (by decide)

theorem tokensFrom_colon_sp (rest : List Char) (pos : Nat) :
    tokensFrom (':' :: ' ' :: rest) pos = ⟨.colon, ":", pos⟩ :: tokensFrom rest (pos + 2) := by
  have h1 : tokensFrom (':' :: ' ' :: rest) pos
      = ⟨.colon, ":", pos⟩ :: tokensFrom (' ' :: rest) (pos + 1) :=
    tokensFrom_tok [':'] (' ' :: rest) pos (pos + 1) ⟨.colon, ":", pos⟩
      (nextToken_colon_space rest pos) (by simp)
  rw [h1, tokensFrom_ws ' ' rest (pos + 1) (by decide)]

theorem tokensFrom_comma_tok (rest : List Char) (pos : Nat) :
    tokensFrom (',' :: rest) pos = ⟨.comma, ",", pos⟩ :: tokensFrom rest (pos + 1) :=
  tokensFrom_tok [','] rest pos (pos + 1) ⟨.comma, ",", pos⟩
    (nextToken_comma rest pos) (by simp)

theorem tokensFrom_lbrace_tok (rest : List Char) (pos : Nat) :
    tokensFrom ('{' :: rest) pos = ⟨.lbrace, "\x7b", pos⟩ :: tokensFrom rest (pos + 1) :=
  tokensFrom_tok ['{'] rest pos (pos + 1) ⟨.lbrace, "\x7b", pos⟩
    (nextToken_lbrace rest pos) (by simp)

theorem tokensFrom_rbrace_tok (rest : List Char) (pos : Nat) :
    tokensFrom ('}' :: rest) pos = ⟨.rbrace, "\x7d", pos⟩ :: tokensFrom rest (pos + 1) :=
  tokensFrom_tok ['}'] rest pos (pos + 1) ⟨.rbrace, "\x7d", pos⟩
    (nextToken_rbrace rest pos) (by simp)

theorem tokensFrom_lbracket_tok (rest : List Char) (pos : Nat) :
    tokensFrom ('[' :: rest) pos = ⟨.lbracket, "[", pos⟩ :: tokensFrom rest (pos + 1) :=
  tokensFrom_tok ['['] rest pos (pos + 1) ⟨.lbracket, "[", pos⟩
    (nextToken_lbracket rest pos) (by simp)

theorem tokensFrom_rbracket_tok (rest : List Char) (pos : Nat) :
    tokensFrom (']' :: rest) pos = ⟨.rbracket, "]", pos⟩ :: tokensFrom rest (pos + 1) :=
  tokensFrom_tok [']'] rest pos (pos + 1) ⟨.rbracket, "]", pos⟩
    (nextToken_rbracket rest pos) (by simp)

/-- The token stream of an encoded flat object body followed by anything:
the entry tokens, then the stream of the remainder. -/
theorem tokensFrom_entries (sz ind : Nat) (r : List Char) :
    ∀ (es : List (String × Value)) (pos : Nat),
      (∀ p ∈ es, safeKey p.1 = true) → (∀ p ∈ es, flatScalar p.2 = true) →
      ∃ pre pos', tokensFrom ((flatEntriesText sz ind es).data ++ r) pos
        = pre ++ tokensFrom r pos' ∧ pre.map tokAbs = entryToksAbs es := by
  intro es
  induction es with
  | nil => exact fun pos _ _ => ⟨[], pos, rfl, rfl⟩
  | cons hd tail ih =>
    intro pos hk hv
    obtain ⟨k, v⟩ := hd
    have hk1 : safeKey k = true := hk (k, v) (by simp)
    have hv1 : flatScalar v = true := hv (k, v) (by simp)
    cases tail with
    | nil =>
      have hdata : (flatEntriesText sz ind [(k, v)]).data ++ r
          = List.replicate (ind + sz) ' ' ++
              (k.data ++ ':' :: ' ' :: ((scalText v).data ++ '\n' :: r)) := by
        show ((((List.replicate (ind + sz) ' ' ++ k.data) ++ [':', ' ']) ++
            (scalText v).data) ++ ['\n']) ++ r = _
        simp only [List.append_assoc, List.cons_append, List.nil_append]
      refine ⟨[⟨.ident, k, pos + (ind + sz)⟩,
               ⟨.colon, ":", pos + (ind + sz) + k.data.length⟩,
               ⟨(scalTokAbs v).1, (scalTokAbs v).2, pos + (ind + sz) + k.data.length + 2⟩],
              pos + (ind + sz) + k.data.length + 2 + (scalText v).data.length + 1, ?_, ?_⟩
      · rw [hdata, tokensFrom_spaces,
          tokensFrom_key k _ _ hk1 (fun x hx => by simp at hx; subst hx; decide),
          tokensFrom_colon_sp,
          tokensFrom_scal v _ _ hv1 (fun x hx => by simp at hx; subst hx; decide),
          tokensFrom_nl]
        rfl
      · simp [tokAbs, entryToksAbs]
    | cons e2 rest =>
      obtain ⟨pre', pos'', hstream, habs⟩ :=
        ih (pos + (ind + sz) + k.data.length + 2 + (scalText v).data.length + 2)
          (fun p hp => hk p (by simp [hp])) (fun p hp => hv p (by simp [hp]))
      have hdata : (flatEntriesText sz ind ((k, v) :: e2 :: rest)).data ++ r
          = List.replicate (ind + sz) ' ' ++
              (k.data ++ ':' :: ' ' :: ((scalText v).data ++ ',' :: '\n' ::
                ((flatEntriesText sz ind (e2 :: rest)).data ++ r))) := by
        show ((((List.replicate (ind + sz) ' ' ++ k.data) ++ [':', ' ']) ++
            (scalText v).data) ++ [',', '\n'] ++ (flatEntriesText sz ind (e2 :: rest)).data)
            ++ r = _
        simp only [List.append_assoc, List.cons_append, List.nil_append]
      refine ⟨⟨.ident, k, pos + (ind + sz)⟩ ::
               ⟨.colon, ":", pos + (ind + sz) + k.data.length⟩ ::
               ⟨(scalTokAbs v).1, (scalTokAbs v).2, pos + (ind + sz) + k.data.length + 2⟩ ::
               ⟨.comma, ",", pos + (ind + sz) + k.data.length + 2 + (scalText v).data.length⟩ ::
               pre', pos'', ?_, ?_⟩
      · rw [hdata, tokensFrom_spaces,
          tokensFrom_key k _ _ hk1 (fun x hx => by simp at hx; subst hx; decide),
          tokensFrom_colon_sp,
          tokensFrom_scal v _ _ hv1 (fun x hx => by simp at hx; subst hx; decide),
          tokensFrom_comma_tok, tokensFrom_nl, hstream]
        rfl
      · simp only [List.map_cons, habs]
        rfl

/-- The token stream of an encoded flat array body followed by a remainder
that starts at a separator or closer (or ends). -/
theorem tokensFrom_elems (sz ind : Nat) (r : List Char)
    (hr : ∀ x, r.head? = some x → boundaryChar x = true) :
    ∀ (xs : List Value) (pos : Nat), (∀ v ∈ xs, flatScalar v = true) →
    ∃ pre pos', tokensFrom ((flatElemsText sz ind xs).data ++ r) pos
      = pre ++ tokensFrom r pos' ∧ pre.map tokAbs = elemToksAbs xs := by
  intro xs
  induction xs with
  | nil => exact fun pos _ => ⟨[], pos, rfl, rfl⟩
  | cons v tail ih =>
    intro pos hv
    have hv1 : flatScalar v = true := hv v (by simp)
    cases tail with
    | nil =>
      have hdata : (flatElemsText sz ind [v]).data ++ r
          = List.replicate (ind + sz) ' ' ++ ((scalText v).data ++ r) := by
        show (List.replicate (ind + sz) ' ' ++ (scalText v).data) ++ r = _
        simp only [List.append_assoc]
      refine ⟨[⟨(scalTokAbs v).1, (scalTokAbs v).2, pos + (ind + sz)⟩],
              pos + (ind + sz) + (scalText v).data.length, ?_, ?_⟩
      · rw [hdata, tokensFrom_spaces, tokensFrom_scal v _ _ hv1 hr]
        rfl
      · simp [tokAbs, elemToksAbs]
    | cons e2 rest =>
      obtain ⟨pre', pos'', hstream, habs⟩ :=
        ih (pos + (ind + sz) + (scalText v).data.length + 2)
          (fun x hx => hv x (by simp [hx]))
      have hdata : (flatElemsText sz ind (v :: e2 :: rest)).data ++ r
          = List.replicate (ind + sz) ' ' ++
              ((scalText v).data ++ ',' :: '\n' ::
                ((flatElemsText sz ind (e2 :: rest)).data ++ r)) := by
        show ((List.replicate (ind + sz) ' ' ++ (scalText v).data) ++ [',', '\n']
            ++ (flatElemsText sz ind (e2 :: rest)).data) ++ r = _
        simp only [List.append_assoc, List.cons_append, List.nil_append]
      refine ⟨⟨(scalTokAbs v).1, (scalTokAbs v).2, pos + (ind + sz)⟩ ::
               ⟨.comma, ",", pos + (ind + sz) + (scalText v).data.length⟩ :: pre',
              pos'', ?_, ?_⟩
      · rw [hdata, tokensFrom_spaces,
          tokensFrom_scal v _ _ hv1 (fun x hx => by simp at hx; subst hx; decide),
          tokensFrom_comma_tok, tokensFrom_nl, hstream]
        rfl
      · simp only [List.map_cons, habs]
        rfl

/-! ## Rendering of flat scalars and the body texts -/

theorem encodeValue_scal (v : Value) (o : Options) (ind : Nat) (hv : flatScalar v = true) :
    encodeValue v o ind = .ok (scalText v) := by
  cases v <;> first | rfl | simp [flatScalar] at hv

theorem renderEntries_scal (o : Options) (ind : Nat) :
    ∀ (es : List (String × Value)), (∀ p ∈ es, flatScalar p.2 = true) →
    renderEntries es o ind = .ok (es.map (fun p => (p.1, scalText p.2))) := by
  intro es
  induction es with
  | nil => intro _; rfl
  | cons p rest ih =>
    intro hv
    obtain ⟨k, v⟩ := p
    show (match encodeValue v o ind with
          | Except.error e => Except.error e
          | Except.ok s =>
            match renderEntries rest o ind with
            | Except.error e => Except.error e
            | Except.ok r => Except.ok ((k, s) :: r)) = _
    rw [encodeValue_scal v o ind (hv (k, v) (by simp)), ih (fun p hp => hv p (by simp [hp]))]
    rfl

theorem renderElems_scal (o : Options) (ind : Nat) :
    ∀ (xs : List Value), (∀ v ∈ xs, flatScalar v = true) →
    renderElems xs o ind = .ok (xs.map scalText) := by
  intro xs
  induction xs with
  | nil => intro _; rfl
  | cons v rest ih =>
    intro hv
    show (match encodeValue v o ind with
          | Except.error e => Except.error e
          | Except.ok s =>
            match renderElems rest o ind with
            | Except.error e => Except.error e
            | Except.ok r => Except.ok (s :: r)) = _
    rw [encodeValue_scal v o ind (hv v (by simp)), ih (fun x hx => hv x (by simp [hx]))]
    rfl

theorem flatEntriesText_eq (sz ind : Nat) :
    ∀ (es : List (String × Value)),
      flatEntriesText sz ind es = entryLines sz ind (es.map (fun p => (p.1, scalText p.2))) := by
  intro es
  induction es with
  | nil => rfl
  | cons p rest ih =>
    obtain ⟨k, v⟩ := p
    cases rest with
    | nil => rfl
    | cons q rest2 =>
      show spaces (ind + sz) ++ k ++ ": " ++ scalText v ++ ",\n"
          ++ flatEntriesText sz ind (q :: rest2) = _
      rw [ih]
      rfl

theorem flatElemsText_eq (sz ind : Nat) :
    ∀ (xs : List Value),
      flatElemsText sz ind xs = elemLines sz ind (xs.map scalText) := by
  intro xs
  induction xs with
  | nil => rfl
  | cons v rest ih =>
    cases rest with
    | nil => rfl
    | cons w rest2 =>
      show spaces (ind + sz) ++ scalText v ++ ",\n" ++ flatElemsText sz ind (w :: rest2) = _
      rw [ih]
      rfl

/-! ## Sorting commutes with value rendering; Go map assignment facts -/

theorem orderedInsert_map_key {β : Type} (g : Value → β) (x : String × Value) :
    ∀ (l : List (String × Value)),
      (List.orderedInsert pairRel x l).map (fun p => (p.1, g p.2))
        = List.orderedInsert pairRel (x.1, g x.2) (l.map (fun p => (p.1, g p.2))) := by
  intro l
  induction l with
  | nil => rfl
  | cons b l ih =>
    show (if pairRel x b then x :: b :: l else b :: List.orderedInsert pairRel x l).map
        (fun p => (p.1, g p.2)) =
      (if pairRel (x.1, g x.2) (b.1, g b.2)
        then (x.1, g x.2) :: (b.1, g b.2) :: l.map (fun p => (p.1, g p.2))
        else (b.1, g b.2) :: List.orderedInsert pairRel (x.1, g x.2)
          (l.map (fun p => (p.1, g p.2))))
    by_cases h : pairRel x b
    · rw [if_pos h, if_pos (show pairRel (x.1, g x.2) (b.1, g b.2) from h)]
      rfl
    · rw [if_neg h, if_neg (show ¬pairRel (x.1, g x.2) (b.1, g b.2) from h)]
      show (b.1, g b.2) :: (List.orderedInsert pairRel x l).map (fun p => (p.1, g p.2)) = _
      rw [ih]

theorem sortPairs_map_key {β : Type} (g : Value → β) :
    ∀ (es : List (String × Value)),
      sortPairs (es.map (fun p => (p.1, g p.2))) = (sortPairs es).map (fun p => (p.1, g p.2)) := by
  intro es
  induction es with
  | nil => rfl
  | cons x l ih =>
    show List.orderedInsert pairRel (x.1, g x.2) (List.insertionSort pairRel
        (l.map (fun p => (p.1, g p.2)))) = _
    rw [show List.insertionSort pairRel (l.map (fun p => (p.1, g p.2)))
        = sortPairs (l.map (fun p => (p.1, g p.2))) from rfl, ih,
      ← orderedInsert_map_key g x (sortPairs l)]
    rfl

theorem sortPairs_perm {α : Type} (es : List (String × α)) : List.Perm (sortPairs es) es :=
  List.perm_insertionSort pairRel es

theorem insertKV_fresh (k : String) (v : Value) :
    ∀ (acc : List (String × Value)), k ∉ acc.map Prod.fst →
      insertKV acc k v = acc ++ [(k, v)] := by
  intro acc
  induction acc with
  | nil => intro _; rfl
  | cons p rest ih =>
    intro h
    obtain ⟨k', v'⟩ := p
    simp only [List.map_cons, List.mem_cons, not_or] at h
    show (if k' = k then (k', v) :: rest else (k', v') :: insertKV rest k v) = _
    rw [if_neg (fun hc => h.1 hc.symm), ih h.2]
    rfl

theorem accFold_eq : ∀ (l acc : List (String × Value)),
    (l.map Prod.fst).Nodup → (∀ p ∈ l, p.1 ∉ acc.map Prod.fst) →
    accFold acc l = acc ++ l := by
  intro l
  induction l with
  | nil => intro acc _ _; simp [accFold]
  | cons x rest ih =>
    intro acc hnd hdisj
    have hfresh : insertKV acc x.1 x.2 = acc ++ [(x.1, x.2)] :=
      insertKV_fresh x.1 x.2 acc (hdisj x (List.mem_cons_self x rest))
    have hnd' : (rest.map Prod.fst).Nodup := by
      simp only [List.map_cons, List.nodup_cons] at hnd
      exact hnd.2
    have hx1 : x.1 ∉ rest.map Prod.fst := by
      simp only [List.map_cons, List.nodup_cons] at hnd
      exact hnd.1
    have hdisj' : ∀ p ∈ rest, p.1 ∉ (insertKV acc x.1 x.2).map Prod.fst := by
      intro p hp
      rw [hfresh]
      simp only [List.map_append, List.mem_append, not_or]
      refine ⟨hdisj p (by simp [hp]), ?_⟩
      simp only [List.map_cons, List.map_nil, List.mem_singleton]
      intro hc
      exact hx1 (hc ▸ List.mem_map_of_mem Prod.fst hp)
    show accFold (insertKV acc x.1 x.2) rest = acc ++ x :: rest
    rw [ih (insertKV acc x.1 x.2) hnd' hdisj', hfresh]
    simp

/-- Looking a key up in a permutation of a key-nodup association list. -/
theorem lookup_eq_of_perm {α : Type} (k : String) {l1 l2 : List (String × α)}
    (hp : List.Perm l1 l2) : (l1.map Prod.fst).Nodup → l1.lookup k = l2.lookup k := by
  induction hp with
  | nil => intro _; rfl
  | cons x l ih =>
    intro hnd
    obtain ⟨kx, vx⟩ := x
    simp only [List.lookup]
    by_cases h : k == kx
    · rw [h]
    · rw [Bool.not_eq_true] at h
      rw [h]
      exact ih (by simp only [List.map_cons, List.nodup_cons] at hnd; exact hnd.2)
  | swap x y l =>
    intro hnd
    obtain ⟨kx, vx⟩ := x
    obtain ⟨ky, vy⟩ := y
    simp only [List.map_cons, List.nodup_cons, List.mem_cons, not_or] at hnd
    by_cases hky : k == ky <;> by_cases hkx : k == kx
    · exact absurd (by rw [← eq_of_beq hky, ← eq_of_beq hkx] : ky = kx) hnd.1.1
    · simp [List.lookup, hky, hkx]
    · simp [List.lookup, hky, hkx]
    · simp [List.lookup, hky, hkx]
  | trans h12 _ ih12 ih23 =>
    intro hnd
    rw [ih12 hnd, ih23 (((h12.map Prod.fst).nodup_iff).mp hnd)]

theorem lookup_sortPairs {α : Type} (k : String) (es : List (String × α))
    (hnd : (es.map Prod.fst).Nodup) : (sortPairs es).lookup k = es.lookup k :=
  lookup_eq_of_perm k (sortPairs_perm es)
    (((sortPairs_perm es).map Prod.fst).nodup_iff.mpr hnd)

theorem entryToksAbs_length : ∀ (es : List (String × Value)),
    es.length ≤ (entryToksAbs es).length
  | [] => by simp [entryToksAbs]
  | [(k, v)] => by simp [entryToksAbs]
  | (k, v) :: q :: rest2 => by
    have ih := entryToksAbs_length (q :: rest2)
    have hlen : (entryToksAbs ((k, v) :: q :: rest2)).length
        = (entryToksAbs (q :: rest2)).length + 4 := by
      rw [show entryToksAbs ((k, v) :: q :: rest2)
          = (.ident, k) :: (.colon, ":") :: scalTokAbs v :: (.comma, ",")
            :: entryToksAbs (q :: rest2) from rfl]
      simp
    simp only [List.length_cons] at ih ⊢
    omega

theorem elemToksAbs_length : ∀ (xs : List Value), xs.length ≤ (elemToksAbs xs).length
  | [] => by simp [elemToksAbs]
  | [v] => by simp [elemToksAbs]
  | v :: w :: rest2 => by
    have ih := elemToksAbs_length (w :: rest2)
    have hlen : (elemToksAbs (v :: w :: rest2)).length
        = (elemToksAbs (w :: rest2)).length + 2 := by
      rw [show elemToksAbs (v :: w :: rest2)
          = scalTokAbs v :: (.comma, ",") :: elemToksAbs (w :: rest2) from rfl]
      simp
    simp only [List.length_cons] at ih ⊢
    omega

/-! ## The parser on flat token streams -/

theorem parseValueF_scal (f : Nat) (hf : 0 < f) (v : Value) (t : Token) (ts : List Token)
    (ht : tokAbs t = scalTokAbs v) (hv : flatScalar v = true) :
    parseValueF f (t :: ts) = .ok (v, ts) := by
  obtain ⟨f', rfl⟩ : ∃ f', f = f' + 1 := ⟨f - 1, by omega⟩
  obtain ⟨ty, val, tpos⟩ := t
  cases v with
  | vint n =>
    simp only [tokAbs, scalTokAbs, Prod.mk.injEq] at ht
    obtain ⟨hty, hval⟩ := ht
    subst hty
    subst hval
    have hrange : int64Min ≤ n ∧ n ≤ int64Max := of_decide_eq_true hv
    show (if hasDotE (toString n) then Except.ok (Value.vfloat (toString n), ts)
          else Except.ok (Value.vint (goParseInt64 (toString n)), ts)) = _
    rw [hasDotE_toString_int n]
    show Except.ok (Value.vint (goParseInt64 (toString n)), ts) = _
    rw [goParseInt64_toString n hrange.1 hrange.2]
  | vbool b =>
    simp only [tokAbs, scalTokAbs, Prod.mk.injEq] at ht
    obtain ⟨hty, hval⟩ := ht
    subst hty
    subst hval
    show Except.ok (Value.vbool (toString b == "true"), ts) = _
    cases b <;> rfl
  | vstr s =>
    simp only [tokAbs, scalTokAbs, Prod.mk.injEq] at ht
    obtain ⟨hty, hval⟩ := ht
    subst hty
    subst hval
    show Except.ok (Value.vstr ((goUnquote (goQuote s)).getD (goQuote s)), ts) = _
    rw [goUnquote_goQuote]
    rfl
  | vnull => simp [flatScalar] at hv
  | vfloat s => simp [flatScalar] at hv
  | vobj es => simp [flatScalar] at hv
  | varr xs => simp [flatScalar] at hv

theorem scalTok_nes (v : Value) (hv : flatScalar v = true) :
    (scalTokAbs v).1 ≠ .rbracket ∧ (scalTokAbs v).1 ≠ .eof := by
  cases v <;> simp_all [flatScalar, scalTokAbs]

/-- The object entry loop on the token stream of a flat body followed by a
closing brace (first conjunct) or by the end of the stream (second). -/
theorem parseObjectLoopF_flat :
    ∀ (es : List (String × Value)) (f : Nat) (obj : List (String × Value))
      (pre rs : List Token),
      pre.map tokAbs = entryToksAbs es →
      (∀ p ∈ es, flatScalar p.2 = true) →
      es.length < f →
      ((curT rs).typ = .rbrace →
        parseObjectLoopF f obj (pre ++ rs) = .ok (.vobj (accFold obj es), rs.tail)) ∧
      ((curT rs).typ = .eof →
        parseObjectLoopF f obj (pre ++ rs) = .error .unclosedObject) := by
  intro es
  induction es with
  | nil =>
    intro f obj pre rs hpre _ hf
    have hpre0 : pre = [] := by
      cases pre with
      | nil => rfl
      | cons a l => simp [entryToksAbs] at hpre
    subst hpre0
    obtain ⟨f', rfl⟩ : ∃ f', f = f' + 1 := ⟨f - 1, by omega⟩
    constructor
    · intro hrb
      show (if (curT rs).typ = TokenType.rbrace then Except.ok (Value.vobj obj, rs.tail)
            else if (curT rs).typ = TokenType.eof then Except.error PErr.unclosedObject
            else if (curT rs).typ = TokenType.ident ∨ (curT rs).typ = TokenType.str then
              (if (curT rs.tail).typ = TokenType.colon then
                match parseValueF f' rs.tail.tail with
                | Except.error e => Except.error e
                | Except.ok (v, ts2) =>
                  parseObjectLoopF f'
                    (insertKV obj (if (curT rs).typ = TokenType.str
                      then ((goUnquote (curT rs).value).getD "") else (curT rs).value) v)
                    (if (curT ts2).typ = TokenType.comma then ts2.tail else ts2)
              else Except.error (.expectedColon (curT rs.tail).pos))
            else Except.error (.expectedKey (curT rs).pos)) = _
      rw [if_pos hrb]
      rfl
    · intro heof
      show (if (curT rs).typ = TokenType.rbrace then Except.ok (Value.vobj obj, rs.tail)
            else if (curT rs).typ = TokenType.eof then Except.error PErr.unclosedObject
            else if (curT rs).typ = TokenType.ident ∨ (curT rs).typ = TokenType.str then
              (if (curT rs.tail).typ = TokenType.colon then
                match parseValueF f' rs.tail.tail with
                | Except.error e => Except.error e
                | Except.ok (v, ts2) =>
                  parseObjectLoopF f'
                    (insertKV obj (if (curT rs).typ = TokenType.str
                      then ((goUnquote (curT rs).value).getD "") else (curT rs).value) v)
                    (if (curT ts2).typ = TokenType.comma then ts2.tail else ts2)
              else Except.error (.expectedColon (curT rs.tail).pos))
            else Except.error (.expectedKey (curT rs).pos)) = _
      rw [if_neg (by simp [heof]), if_pos heof]
  | cons hd tail ih =>
    intro f obj pre rs hpre hflat hf
    obtain ⟨k, v⟩ := hd
    have hv1 : flatScalar v = true := hflat (k, v) (by simp)
    cases pre with
    | nil => cases tail <;> simp [entryToksAbs] at hpre
    | cons t1 pre1 =>
    cases pre1 with
    | nil => cases tail <;> simp [entryToksAbs] at hpre
    | cons t2 pre2 =>
    cases pre2 with
    | nil => cases tail <;> simp [entryToksAbs] at hpre
    | cons t3 pre3 =>
    obtain ⟨f', rfl⟩ : ∃ f', f = f' + 1 := ⟨f - 1, by omega⟩
    cases tail with
    | nil =>
      have hlist : tokAbs t1 :: tokAbs t2 :: tokAbs t3 :: pre3.map tokAbs
          = (.ident, k) :: (.colon, ":") :: scalTokAbs v :: [] := hpre
      injection hlist with h1 hr1
      injection hr1 with h2 hr2
      injection hr2 with h3 h4
      have hpre3 : pre3 = [] := by
        cases pre3 with
        | nil => rfl
        | cons a l => simp at h4
      subst hpre3
      obtain ⟨ty1, val1, p1⟩ := t1
      have h1' : (ty1, val1) = (TokenType.ident, k) := h1
      injection h1' with hty1 hval1
      subst hty1
      have hval1' : k = val1 := hval1.symm
      subst hval1' 
      obtain ⟨ty2, val2, p2⟩ := t2
      have h2' : (ty2, val2) = (TokenType.colon, ":") := h2
      injection h2' with hty2 hval2
      subst hty2
      subst hval2
      have hf0 : 0 < f' := by
        simp only [List.length_cons, List.length_nil] at hf
        omega
      have hstep : parseObjectLoopF (f' + 1) obj
          ((⟨.ident, k, p1⟩ :: ⟨.colon, ":", p2⟩ :: t3 :: []) ++ rs)
          = parseObjectLoopF f' (insertKV obj k v)
              (if (curT rs).typ = TokenType.comma then rs.tail else rs) := by
        show (match parseValueF f' (t3 :: rs) with
              | Except.error e => Except.error e
              | Except.ok (v', ts2) =>
                parseObjectLoopF f' (insertKV obj k v')
                  (if (curT ts2).typ = TokenType.comma then ts2.tail else ts2)) = _
        rw [parseValueF_scal f' hf0 v t3 rs h3 hv1]
      rw [hstep]
      constructor
      · intro hrb
        rw [if_neg (by simp [hrb])]
        exact (ih f' (insertKV obj k v) [] rs rfl (by simp) (by show 0 < f'; exact hf0)).1 hrb
      · intro heof
        rw [if_neg (by simp [heof])]
        exact (ih f' (insertKV obj k v) [] rs rfl (by simp) (by show 0 < f'; exact hf0)).2 heof
    | cons q tail2 =>
      cases pre3 with
      | nil =>
        have hlist : tokAbs t1 :: tokAbs t2 :: tokAbs t3 :: ([] : List (TokenType × String))
            = (.ident, k) :: (.colon, ":") :: scalTokAbs v :: (.comma, ",")
              :: entryToksAbs (q :: tail2) := hpre
        injection hlist with h1 hr1
        injection hr1 with h2 hr2
        injection hr2 with h3 hr3
        simp at hr3
      | cons t4 pre4 =>
        have hlist : tokAbs t1 :: tokAbs t2 :: tokAbs t3 :: tokAbs t4 :: pre4.map tokAbs
            = (.ident, k) :: (.colon, ":") :: scalTokAbs v :: (.comma, ",")
              :: entryToksAbs (q :: tail2) := hpre
        injection hlist with h1 hr1
        injection hr1 with h2 hr2
        injection hr2 with h3 hr3
        injection hr3 with h4 h5
        obtain ⟨ty1, val1, p1⟩ := t1
        have h1' : (ty1, val1) = (TokenType.ident, k) := h1
        injection h1' with hty1 hval1
        subst hty1
        have hval1' : k = val1 := hval1.symm
        subst hval1' 
        obtain ⟨ty2, val2, p2⟩ := t2
        have h2' : (ty2, val2) = (TokenType.colon, ":") := h2
        injection h2' with hty2 hval2
        subst hty2
        subst hval2
        obtain ⟨ty4, val4, p4⟩ := t4
        have h4' : (ty4, val4) = (TokenType.comma, ",") := h4
        injection h4' with hty4 hval4
        subst hty4
        subst hval4
        have hf0 : 0 < f' := by
          simp only [List.length_cons] at hf
          omega
        have hstep : parseObjectLoopF (f' + 1) obj
            ((⟨.ident, k, p1⟩ :: ⟨.colon, ":", p2⟩ :: t3 :: ⟨.comma, ",", p4⟩ :: pre4) ++ rs)
            = parseObjectLoopF f' (insertKV obj k v) (pre4 ++ rs) := by
          show (match parseValueF f' (t3 :: ⟨.comma, ",", p4⟩ :: (pre4 ++ rs)) with
                | Except.error e => Except.error e
                | Except.ok (v', ts2) =>
                  parseObjectLoopF f' (insertKV obj k v')
                    (if (curT ts2).typ = TokenType.comma then ts2.tail else ts2)) = _
          rw [parseValueF_scal f' hf0 v t3 _ h3 hv1]
          rfl
        rw [hstep]
        have hfuel : (q :: tail2).length < f' := by
          simp only [List.length_cons] at hf ⊢
          omega
        constructor
        · intro hrb
          exact (ih f' (insertKV obj k v) pre4 rs h5
            (fun p hp => hflat p (by simp [hp])) hfuel).1 hrb
        · intro heof
          exact (ih f' (insertKV obj k v) pre4 rs h5
            (fun p hp => hflat p (by simp [hp])) hfuel).2 heof

/-- The plain element loop on the token stream of a flat body followed by
a closing bracket (first conjunct) or by the end of the stream (second). -/
theorem parseArrayLoopF_flat :
    ∀ (xs : List Value) (f : Nat) (arr : List Value) (pre rs : List Token),
      pre.map tokAbs = elemToksAbs xs →
      (∀ v ∈ xs, flatScalar v = true) →
      xs.length < f →
      ((curT rs).typ = .rbracket →
        parseArrayLoopF f arr (pre ++ rs) = .ok (.varr (arr ++ xs), rs.tail)) ∧
      ((curT rs).typ = .eof →
        parseArrayLoopF f arr (pre ++ rs) = .error .unclosedArray) := by
  intro xs
  induction xs with
  | nil =>
    intro f arr pre rs hpre _ hf
    have hpre0 : pre = [] := by
      cases pre with
      | nil => rfl
      | cons a l => simp [elemToksAbs] at hpre
    subst hpre0
    obtain ⟨f', rfl⟩ : ∃ f', f = f' + 1 := ⟨f - 1, by omega⟩
    constructor
    · intro hrb
      show (if (curT rs).typ = TokenType.rbracket then Except.ok (Value.varr arr, rs.tail)
            else if (curT rs).typ = TokenType.eof then Except.error PErr.unclosedArray
            else match parseValueF f' rs with
              | Except.error e => Except.error e
              | Except.ok (v, ts2) =>
                parseArrayLoopF f' (arr ++ [v])
                  (if (curT ts2).typ = TokenType.comma then ts2.tail else ts2)) = _
      rw [if_pos hrb]
      simp
    · intro heof
      show (if (curT rs).typ = TokenType.rbracket then Except.ok (Value.varr arr, rs.tail)
            else if (curT rs).typ = TokenType.eof then Except.error PErr.unclosedArray
            else match parseValueF f' rs with
              | Except.error e => Except.error e
              | Except.ok (v, ts2) =>
                parseArrayLoopF f' (arr ++ [v])
                  (if (curT ts2).typ = TokenType.comma then ts2.tail else ts2)) = _
      rw [if_neg (by simp [heof]), if_pos heof]
  | cons v tail ih =>
    intro f arr pre rs hpre hflat hf
    have hv1 : flatScalar v = true := hflat v (by simp)
    cases pre with
    | nil => cases tail <;> simp [elemToksAbs] at hpre
    | cons t1 pre1 =>
    obtain ⟨f', rfl⟩ : ∃ f', f = f' + 1 := ⟨f - 1, by omega⟩
    have hne := scalTok_nes v hv1
    cases tail with
    | nil =>
      have hlist : tokAbs t1 :: pre1.map tokAbs = scalTokAbs v :: [] := hpre
      injection hlist with h1 h2
      have hpre1 : pre1 = [] := by
        cases pre1 with
        | nil => rfl
        | cons a l => simp at h2
      subst hpre1
      have hf0 : 0 < f' := by
        simp only [List.length_cons, List.length_nil] at hf
        omega
      have hty1 : t1.typ = (scalTokAbs v).1 := congrArg Prod.fst h1
      have hstep : parseArrayLoopF (f' + 1) arr ((t1 :: []) ++ rs)
          = parseArrayLoopF f' (arr ++ [v])
              (if (curT rs).typ = TokenType.comma then rs.tail else rs) := by
        show (if t1.typ = TokenType.rbracket then Except.ok (Value.varr arr, rs)
              else if t1.typ = TokenType.eof then Except.error PErr.unclosedArray
              else match parseValueF f' (t1 :: rs) with
                | Except.error e => Except.error e
                | Except.ok (v', ts2) =>
                  parseArrayLoopF f' (arr ++ [v'])
                    (if (curT ts2).typ = TokenType.comma then ts2.tail else ts2)) = _
        rw [if_neg (by rw [hty1]; exact hne.1), if_neg (by rw [hty1]; exact hne.2),
          parseValueF_scal f' hf0 v t1 rs h1 hv1]
      rw [hstep]
      constructor
      · intro hrb
        rw [if_neg (by simp [hrb])]
        have hrec := (ih f' (arr ++ [v]) [] rs rfl (by simp)
          (by show 0 < f'; exact hf0)).1 hrb
        simp only [List.nil_append, List.append_nil] at hrec
        exact hrec
      · intro heof
        rw [if_neg (by simp [heof])]
        exact (ih f' (arr ++ [v]) [] rs rfl (by simp) (by show 0 < f'; exact hf0)).2 heof
    | cons w tail2 =>
      cases pre1 with
      | nil =>
        have hlist : tokAbs t1 :: ([] : List (TokenType × String))
            = scalTokAbs v :: (.comma, ",") :: elemToksAbs (w :: tail2) := hpre
        injection hlist with h1 h2
        simp at h2
      | cons t2 pre2 =>
        have hlist : tokAbs t1 :: tokAbs t2 :: pre2.map tokAbs
            = scalTokAbs v :: (.comma, ",") :: elemToksAbs (w :: tail2) := hpre
        injection hlist with h1 hr1
        injection hr1 with h2 h3
        obtain ⟨ty2, val2, p2⟩ := t2
        have h2' : (ty2, val2) = (TokenType.comma, ",") := h2
        injection h2' with hty2 hval2
        subst hty2
        subst hval2
        have hf0 : 0 < f' := by
          simp only [List.length_cons] at hf
          omega
        have hty1 : t1.typ = (scalTokAbs v).1 := congrArg Prod.fst h1
        have hstep : parseArrayLoopF (f' + 1) arr ((t1 :: ⟨.comma, ",", p2⟩ :: pre2) ++ rs)
            = parseArrayLoopF f' (arr ++ [v]) (pre2 ++ rs) := by
          show (if t1.typ = TokenType.rbracket
                then Except.ok (Value.varr arr, ⟨.comma, ",", p2⟩ :: (pre2 ++ rs))
                else if t1.typ = TokenType.eof then Except.error PErr.unclosedArray
                else match parseValueF f' (t1 :: ⟨.comma, ",", p2⟩ :: (pre2 ++ rs)) with
                  | Except.error e => Except.error e
                  | Except.ok (v', ts2) =>
                    parseArrayLoopF f' (arr ++ [v'])
                      (if (curT ts2).typ = TokenType.comma then ts2.tail else ts2)) = _
          rw [if_neg (by rw [hty1]; exact hne.1), if_neg (by rw [hty1]; exact hne.2),
            parseValueF_scal f' hf0 v t1 _ h1 hv1]
          rfl
        rw [hstep]
        have hfuel : (w :: tail2).length < f' := by
          simp only [List.length_cons] at hf ⊢
          omega
        constructor
        · intro hrb
          have hrec := (ih f' (arr ++ [v]) pre2 rs h3
            (fun x hx => hflat x (by simp [hx])) hfuel).1 hrb
          simp only [List.append_assoc, List.singleton_append] at hrec
          exact hrec
        · intro heof
          exact (ih f' (arr ++ [v]) pre2 rs h3
            (fun x hx => hflat x (by simp [hx])) hfuel).2 heof

/-- parseTableFormat accepts end of input as a row-section terminator: no
unclosed-array check runs (part_001 lines 705 to 712 skip the close
bracket only when present, lines 727 to 732 return the rows). -/
theorem parseTableFormatF_eof (f : Nat) (keys : List String) (arr : List Value)
    (ts : List Token) (hf : 0 < f) (heof : (curT ts).typ = .eof) :
    parseTableFormatF f keys arr ts = .ok (.varr arr, ts) := by
  obtain ⟨f', rfl⟩ : ∃ f', f = f' + 1 := ⟨f - 1, by omega⟩
  show (if (curT ts).typ = TokenType.rbracket then Except.ok (Value.varr arr, ts.tail)
        else if (curT ts).typ = TokenType.eof then Except.ok (Value.varr arr, ts)
        else if (curT ts).typ = TokenType.ident ∧ isAllWhitespaceB (curT ts).value
          then parseTableFormatF f' keys arr ts.tail
        else match parseRowF f' keys [] ts with
          | Except.error e => Except.error e
          | Except.ok (obj, ts2) =>
            parseTableFormatF f' keys
              (if obj.isEmpty then arr else arr ++ [Value.vobj obj]) ts2) = _
  rw [if_neg (by simp [heof]), if_pos heof]

theorem scalTok_ne_lbrace (v : Value) (hv : flatScalar v = true) :
    (scalTokAbs v).1 ≠ .lbrace := by
  cases v <;> simp_all [flatScalar, scalTokAbs]

theorem elemToksAbs_head (v : Value) (xs : List Value) :
    ∃ rest, elemToksAbs (v :: xs) = scalTokAbs v :: rest := by
  cases xs with
  | nil => exact ⟨[], rfl⟩
  | cons w l => exact ⟨(.comma, ",") :: elemToksAbs (w :: l), rfl⟩

/-- parseArray without a size annotation and without a tabular header runs
the plain element loop on the tokens after the open bracket. -/
theorem parseArrayF_plain (f : Nat) (ts : List Token) (hf : 0 < f)
    (h1 : (curT ts.tail).typ ≠ .number) (h2 : (curT ts.tail).typ ≠ .lbrace) :
    parseArrayF f ts = parseArrayLoopF (f - 1) [] ts.tail := by
  obtain ⟨f', rfl⟩ : ∃ f', f = f' + 1 := ⟨f - 1, by omega⟩
  show (if (curT (if (curT ts.tail).typ = TokenType.number then ts.tail.tail else ts.tail)).typ
        = TokenType.lbrace then
          (match parseTableKeysF f' []
              (if (curT ts.tail).typ = TokenType.number
                then ts.tail.tail else ts.tail).tail with
           | Except.error e => Except.error e
           | Except.ok (tableKeys, ts3) =>
             if tableKeys.isEmpty then
               parseArrayLoopF f' []
                 (if (curT (if (curT ts3).typ = TokenType.rbrace then ts3.tail else ts3)).typ
                    = TokenType.colon
                  then (if (curT ts3).typ = TokenType.rbrace then ts3.tail else ts3).tail
                  else (if (curT ts3).typ = TokenType.rbrace then ts3.tail else ts3))
             else
               parseTableFormatF f' tableKeys []
                 (if (curT (if (curT ts3).typ = TokenType.rbrace then ts3.tail else ts3)).typ
                    = TokenType.colon
                  then (if (curT ts3).typ = TokenType.rbrace then ts3.tail else ts3).tail
                  else (if (curT ts3).typ = TokenType.rbrace then ts3.tail else ts3)))
        else parseArrayLoopF f' []
          (if (curT ts.tail).typ = TokenType.number then ts.tail.tail else ts.tail)) = _
  rw [if_neg h1, if_neg h2]
  congr 1

/-- A flat object with identifier keys and scalar values encodes to the
brace text of its sorted entries, and that text decodes back to exactly
the sorted entry list. -/
theorem encode_decode_flat_obj (es : List (String × Value)) (hne : es ≠ [])
    (hnd : (es.map Prod.fst).Nodup) (hk : ∀ p ∈ es, safeKey p.1 = true)
    (hv : ∀ p ∈ es, flatScalar p.2 = true) :
    Encode (.vobj es) DefaultOptions
      = .ok (buildMapText 2 0 ((sortPairs es).map (fun p => (p.1, scalText p.2)))) ∧
    decode (buildMapText 2 0 ((sortPairs es).map (fun p => (p.1, scalText p.2))))
      = .ok (.vobj (sortPairs es)) := by
  have hperm := sortPairs_perm es
  have hv' : ∀ p ∈ sortPairs es, flatScalar p.2 = true :=
    fun p hp => hv p (hperm.mem_iff.mp hp)
  have hk' : ∀ p ∈ sortPairs es, safeKey p.1 = true :=
    fun p hp => hk p (hperm.mem_iff.mp hp)
  have hnd' : ((sortPairs es).map Prod.fst).Nodup :=
    ((sortPairs_perm es).map Prod.fst).nodup_iff.mpr hnd
  constructor
  · show (match renderEntries es DefaultOptions (0 + DefaultOptions.IndentSize) with
          | Except.error e => Except.error e
          | Except.ok rendered =>
            Except.ok (buildMapText DefaultOptions.IndentSize 0 (sortPairs rendered))) = _
    rw [renderEntries_scal DefaultOptions (0 + DefaultOptions.IndentSize) es hv]
    show Except.ok (buildMapText DefaultOptions.IndentSize 0
        (sortPairs (es.map (fun p => (p.1, scalText p.2))))) = _
    rw [sortPairs_map_key scalText es]
    rfl
  · obtain ⟨a0, l0, he'⟩ : ∃ a l, sortPairs es = a :: l := by
      cases hc : sortPairs es with
      | nil =>
        have hl := hperm.length_eq
        rw [hc] at hl
        cases hes : es with
        | nil => exact absurd hes hne
        | cons a l => rw [hes] at hl; simp at hl
      | cons a l => exact ⟨a, l, rfl⟩
    have hdata : (buildMapText 2 0 ((sortPairs es).map (fun p => (p.1, scalText p.2)))).data
        = '{' :: '\n' :: ((flatEntriesText 2 0 (sortPairs es)).data ++ ['}']) := by
      rw [he', flatEntriesText_eq 2 0 (a0 :: l0)]
      show (((([] ++ ['{']) ++ ['\n'])
          ++ (entryLines 2 0 ((a0 :: l0).map (fun p => (p.1, scalText p.2)))).data
          ++ []) ++ ['}']) = _
      simp only [List.append_assoc, List.cons_append, List.nil_append, List.append_nil]
    obtain ⟨pre, pos', hstream, habs⟩ :=
      tokensFrom_entries 2 0 ['}'] (sortPairs es) (0 + 1 + 1) hk' hv'
    have hts : tokenize (buildMapText 2 0 ((sortPairs es).map (fun p => (p.1, scalText p.2))))
        = ⟨.lbrace, "\x7b", 0⟩ :: (pre ++ [⟨.rbrace, "\x7d", pos'⟩]) := by
      rw [tokenize_eq_tokensFrom, hdata, tokensFrom_lbrace_tok, tokensFrom_nl, hstream,
        tokensFrom_rbrace_tok, tokensFrom_nil]
    have hlen : (sortPairs es).length ≤ pre.length := by
      have h1 := entryToksAbs_length (sortPairs es)
      rw [← habs] at h1
      simpa using h1
    show parseF (10 * (tokenize (buildMapText 2 0
        ((sortPairs es).map (fun p => (p.1, scalText p.2))))).length + 16)
        (tokenize (buildMapText 2 0 ((sortPairs es).map (fun p => (p.1, scalText p.2))))) = _
    rw [hts]
    have hlen2 : (⟨.lbrace, "\x7b", 0⟩ :: (pre ++ [⟨.rbrace, "\x7d", pos'⟩]) : List Token).length
        = pre.length + 2 := by simp
    rw [hlen2]
    obtain ⟨F2, hF2⟩ : ∃ F2, 10 * (pre.length + 2) + 16 = F2 + 2 :=
      ⟨10 * (pre.length + 2) + 14, by omega⟩
    rw [hF2]
    show Except.map Prod.fst (parseObjectLoopF F2 [] (pre ++ [⟨.rbrace, "\x7d", pos'⟩])) = _
    rw [(parseObjectLoopF_flat (sortPairs es) F2 [] pre [⟨.rbrace, "\x7d", pos'⟩] habs hv'
      (by omega)).1 rfl]
    rw [accFold_eq (sortPairs es) [] hnd' (fun p hp => by simp)]
    rfl

/-- C1: the round-trip claim is wrong as stated: a key containing a space
is a legal Go map key with a scalar value, the encoder emits it verbatim,
and the decoder then splits it into two identifier tokens and fails with
an expected-colon error, reproducing no key/value set at all. -/
theorem c1_counterexample :
    Encode (.vobj [("a b", Value.vint 1)]) DefaultOptions = .ok "\x7b\n  a b: 1\n\x7d" ∧
    decode "\x7b\n  a b: 1\n\x7d" = .error (.expectedColon 6) := ⟨rfl, rfl⟩

/-- C1, amended: for maps whose keys lex as single identifier tokens
(safeKey) and whose values are int64-range integers, booleans, or strings
of code points below 0x80 (flatScalar), encode under default options
succeeds and decode of the result yields a map with the same key/value
set: every key looks up to the same value as in the input. -/
theorem c1_amended (es : List (String × Value))
    (hnd : (es.map Prod.fst).Nodup)
    (hk : ∀ p ∈ es, safeKey p.1 = true)
    (hv : ∀ p ∈ es, flatScalar p.2 = true) :
    ∃ t es', Encode (.vobj es) DefaultOptions = .ok t ∧
      decode t = .ok (.vobj es') ∧ ∀ k, es'.lookup k = es.lookup k := by
  cases es with
  | nil => exact ⟨"\x7b\x7d", [], rfl, rfl, fun k => rfl⟩
  | cons e es2 =>
    obtain ⟨henc, hdec⟩ := encode_decode_flat_obj (e :: es2) (by simp) hnd hk hv
    exact ⟨_, sortPairs (e :: es2), henc, hdec, fun k => lookup_sortPairs k (e :: es2) hnd⟩

/-- C1 witness: the amended round-trip at a concrete one-entry map. -/
theorem c1_witness :
    ∃ t es', Encode (.vobj [("a", Value.vint 1)]) DefaultOptions = .ok t ∧
      decode t = .ok (.vobj es') ∧ ∀ k, es'.lookup k = [("a", Value.vint 1)].lookup k :=
  c1_amended [("a", Value.vint 1)] (by decide) (by decide) (by decide)

/-- C3: false as stated for the tabular form: a tabular array whose rows
run to the end of input without a closing bracket decodes successfully
(here to a one-row array) instead of returning an unclosed-array error:
parseTableFormat treats end of input as a row-section terminator and
returns the rows with no missing-bracket check. -/
theorem c3_counterexample :
    decode "[\x7bid\x7d: 1" = .ok (.varr [.vobj [("id", .vint 1)]]) := rfl

/-- C3, amended: a flat object body whose closing brace is missing
decodes to the unclosed-object error, and a flat non-tabular array body
(first element not a number token, so it is not eaten as a size
annotation) whose closing bracket is missing decodes to the
unclosed-array error; but the tabular row parser returns success at end
of input, for every key list and accumulated row list. -/
theorem c3_amended :
    (∀ (sz ind : Nat) (es : List (String × Value)),
      (∀ p ∈ es, safeKey p.1 = true) → (∀ p ∈ es, flatScalar p.2 = true) →
      decode ("\x7b\n" ++ flatEntriesText sz ind es) = .error .unclosedObject) ∧
    (∀ (sz ind : Nat) (xs : List Value),
      (∀ v ∈ xs, flatScalar v = true) →
      (∀ v, xs.head? = some v → (scalTokAbs v).1 ≠ .number) →
      decode ("[\n" ++ flatElemsText sz ind xs) = .error .unclosedArray) ∧
    (∀ (f : Nat) (keys : List String) (arr : List Value) (ts : List Token),
      0 < f → (curT ts).typ = .eof → parseTableFormatF f keys arr ts = .ok (.varr arr, ts)) := by
  refine ⟨?_, ?_, parseTableFormatF_eof⟩
  · intro sz ind es hk hv
    obtain ⟨pre, pos', hstream, habs⟩ := tokensFrom_entries sz ind [] es (0 + 1 + 1) hk hv
    simp only [List.append_nil, tokensFrom_nil] at hstream
    have hts : tokenize ("\x7b\n" ++ flatEntriesText sz ind es) = ⟨.lbrace, "\x7b", 0⟩ :: pre := by
      rw [tokenize_eq_tokensFrom]
      show tokensFrom ('{' :: '\n' :: (flatEntriesText sz ind es).data) 0 = _
      rw [tokensFrom_lbrace_tok, tokensFrom_nl, hstream]
    have hlen : es.length ≤ pre.length := by
      have h1 := entryToksAbs_length es
      rw [← habs] at h1
      simpa using h1
    show parseF (10 * (tokenize ("\x7b\n" ++ flatEntriesText sz ind es)).length + 16)
        (tokenize ("\x7b\n" ++ flatEntriesText sz ind es)) = _
    rw [hts]
    have hlen2 : (⟨.lbrace, "\x7b", 0⟩ :: pre : List Token).length = pre.length + 1 := by simp
    rw [hlen2]
    obtain ⟨F2, hF2⟩ : ∃ F2, 10 * (pre.length + 1) + 16 = F2 + 2 :=
      ⟨10 * (pre.length + 1) + 14, by omega⟩
    rw [hF2]
    have happl := (parseObjectLoopF_flat es F2 [] pre [] habs hv (by omega)).2 rfl
    rw [List.append_nil] at happl
    show Except.map Prod.fst (parseObjectLoopF F2 [] pre) = _
    rw [happl]
    rfl
  · intro sz ind xs hv hnum
    cases xs with
    | nil => rfl
    | cons v0 xs2 =>
      have hv0 : flatScalar v0 = true := hv v0 (by simp)
      obtain ⟨pre, pos', hstream, habs⟩ :=
        tokensFrom_elems sz ind [] (fun x hx => by simp at hx) (v0 :: xs2) (0 + 1 + 1) hv
      simp only [List.append_nil, tokensFrom_nil] at hstream
      have hts : tokenize ("[\n" ++ flatElemsText sz ind (v0 :: xs2))
          = ⟨.lbracket, "[", 0⟩ :: pre := by
        rw [tokenize_eq_tokensFrom]
        show tokensFrom ('[' :: '\n' :: (flatElemsText sz ind (v0 :: xs2)).data) 0 = _
        rw [tokensFrom_lbracket_tok, tokensFrom_nl, hstream]
      obtain ⟨restAbs, hhead⟩ := elemToksAbs_head v0 xs2
      have habs' := habs
      rw [hhead] at habs'
      cases pre with
      | nil => simp at habs'
      | cons t1 pre1 =>
        have hlist : tokAbs t1 :: pre1.map tokAbs = scalTokAbs v0 :: restAbs := habs'
        injection hlist with h1 hrest
        have hty1 : t1.typ = (scalTokAbs v0).1 := congrArg Prod.fst h1
        have hlen : (v0 :: xs2).length ≤ (t1 :: pre1).length := by
          have h2 := elemToksAbs_length (v0 :: xs2)
          rw [← habs] at h2
          simpa using h2
        show parseF (10 * (tokenize ("[\n" ++ flatElemsText sz ind (v0 :: xs2))).length + 16)
            (tokenize ("[\n" ++ flatElemsText sz ind (v0 :: xs2))) = _
        rw [hts]
        have hlen2 : (⟨.lbracket, "[", 0⟩ :: t1 :: pre1 : List Token).length
            = pre1.length + 2 := by simp
        rw [hlen2]
        obtain ⟨F1, hF1⟩ : ∃ F1, 10 * (pre1.length + 2) + 16 = F1 + 1 :=
          ⟨10 * (pre1.length + 2) + 15, by omega⟩
        rw [hF1]
        show Except.map Prod.fst (parseArrayF F1 (⟨.lbracket, "[", 0⟩ :: t1 :: pre1)) = _
        rw [parseArrayF_plain F1 (⟨.lbracket, "[", 0⟩ :: t1 :: pre1) (by omega)
          (by show t1.typ ≠ TokenType.number; rw [hty1]; exact hnum v0 rfl)
          (by show t1.typ ≠ TokenType.lbrace; rw [hty1]; exact scalTok_ne_lbrace v0 hv0)]
        have hfuel : (v0 :: xs2).length < F1 - 1 := by
          simp only [List.length_cons] at hlen ⊢
          omega
        have happl := (parseArrayLoopF_flat (v0 :: xs2) (F1 - 1) [] (t1 :: pre1) [] habs hv
          hfuel).2 rfl
        rw [List.append_nil] at happl
        simp only [List.tail_cons]
        rw [happl]
        rfl

/-- C3 witness: the amended statement at a one-entry object, a
one-element array, and an empty tabular row section at end of input. -/
theorem c3_witness :
    decode ("\x7b\n" ++ flatEntriesText 2 0 [("a", Value.vint 1)]) = .error .unclosedObject ∧
    decode ("[\n" ++ flatElemsText 2 0 [Value.vbool true]) = .error .unclosedArray ∧
    parseTableFormatF 1 ["id"] [] [] = .ok (.varr [], []) :=
  ⟨c3_amended.1 2 0 [("a", Value.vint 1)] (by decide) (by decide),
   c3_amended.2.1 2 0 [Value.vbool true] (by decide)
     (fun v hv => by simp at hv; subst hv; decide),
   c3_amended.2.2 1 ["id"] [] [] (by decide) rfl⟩

end Gotoon
